import Mathlib

/-!
Verification of `docast-util-from-docs` (flex-development): a shallow
embedding, in Lean 4, of the docblock tokenizer + parser + position-mapping
pipeline, together with proofs about the embedded code.

Conventions used throughout:
* JS strings are embedded as `List Char`; UTF-16 subtleties do not arise in
  any statement below (all inputs are ASCII).
* JS numbers are embedded as `Int` wherever the source only ever produces
  integer values; the one interface where a non-integer JS number is
  observable (`Location.point`'s `offset` argument) additionally gets a
  `ℚ`-typed rendering (`Location.pointQ`).
* Mutation is embedded as explicit state passing; `while` loops are embedded
  as fuel-indexed structural recursion, with the fuel chosen at call sites to
  be provably sufficient.
-/

/-- A unist point, as used by `@flex-development/docast`: `line` and `column`
are 1-indexed, `offset` is a 0-indexed character index.  All values the
embedded code stores in points are integers. -/
structure Pt where
  line : Int
  column : Int
  offset : Int
deriving DecidableEq, Repr

/-- The invalid point `{ line: -1, column: -1, offset: <given> }` returned by
`Location.point` for out-of-range input (src/src/location.ts, `point`). -/
def Pt.invalid (o : Int) : Pt := ⟨-1, -1, o⟩

/-- `src/src/location.ts` line 134: `/[\n\r]/.test(char)` — the characters
that terminate a line. -/
def isLineBreak (c : Char) : Bool := c = '\n' || c = '\r'

/-- One step of the point cursor in `Location.#pt` (src/src/location.ts lines
134-141): a line break resets the column to 1 and bumps the line, any other
character bumps the column; either way the offset advances. -/
def advancePt (p : Pt) (c : Char) : Pt :=
  if isLineBreak c then ⟨p.line + 1, 1, p.offset + 1⟩
  else ⟨p.line, p.column + 1, p.offset + 1⟩

/-- The list of points visited by the loop in `Location.#pt`: the loop checks
the current point before consuming each character of `document + '\n'`, so
the visited points are indexed by how many characters have been consumed. -/
def scanPts (p : Pt) : List Char → List Pt
  | [] => []
  | c :: cs => p :: scanPts (advancePt p c) cs

/-- The point reached after consuming the first `k` characters; `scanPts`
element number `k`. -/
def pointAt (p : Pt) : List Char → Nat → Pt
  | _, 0 => p
  | [], _ + 1 => p
  | c :: cs, k + 1 => pointAt (advancePt p c) cs k

/-- The `Location` utility of src/src/location.ts: a source document plus the
point before its first character (constructor parameter `from`, defaulting to
`{ column: 1, line: 1, offset: 0 }`). -/
structure Location where
  document : List Char
  fromPt : Pt
deriving DecidableEq, Repr

/-- A `Location` built without an explicit `from` point. -/
def Location.ofDoc (doc : List Char) : Location := ⟨doc, ⟨1, 1, 0⟩⟩

/-- The points checked by `Location.#pt`: the loop iterates over
`this.document + '\n'` (src/src/location.ts line 131), checking the current
point before each character. -/
def Location.pts (L : Location) : List Pt :=
  scanPts L.fromPt (L.document ++ ['\n'])

/-- `Location.offset` (src/src/location.ts lines 70-76): the offset of the
first visited point whose line and column match `point`, and `-1` when the
scan finds none. -/
def Location.offset (L : Location) (p : Pt) : Int :=
  match L.pts.find? (fun q => decide (q.line = p.line ∧ q.column = p.column)) with
  | some q => q.offset
  | none => -1

/-- `Location.point` (src/src/location.ts lines 95-101) at an integer
offset: the first visited point whose offset equals `offset`, and the
invalid point `{ column: -1, line: -1, offset }` when the scan finds none. -/
def Location.point (L : Location) (o : Int) : Pt :=
  match L.pts.find? (fun q => decide (q.offset = o)) with
  | some q => q
  | none => Pt.invalid o

/-- A point with JS-number (here: rational) fields, as returned by
`Location.point` when its `offset` argument is not an integer. -/
structure PtQ where
  line : ℚ
  column : ℚ
  offset : ℚ
deriving DecidableEq, Repr

/-- A `Pt` viewed at the JS-number interface. -/
def Pt.toQ (p : Pt) : PtQ := ⟨(p.line : ℚ), (p.column : ℚ), (p.offset : ℚ)⟩

/-- `Location.point` at the full JS-number interface: the same scan as
`Location.point`, with the `pt.offset === offset` check now comparing a
(necessarily integer) scan offset against an arbitrary rational, and the
invalid point carrying the given rational offset unchanged. -/
def Location.pointQ (L : Location) (o : ℚ) : PtQ :=
  match L.pts.find? (fun q => decide ((q.offset : ℚ) = o)) with
  | some q => q.toQ
  | none => ⟨-1, -1, o⟩

theorem scanPts_length (p : Pt) (l : List Char) : (scanPts p l).length = l.length := by
  induction l generalizing p with
  | nil => rfl
  | cons c cs ih => simp [scanPts, ih]

theorem advancePt_offset (p : Pt) (c : Char) : (advancePt p c).offset = p.offset + 1 := by
  unfold advancePt; split <;> rfl

theorem advancePt_line (p : Pt) (c : Char) :
    (advancePt p c).line = p.line + (if isLineBreak c then 1 else 0) := by
  unfold advancePt; split <;> simp_all

theorem pointAt_offset (p : Pt) (l : List Char) (k : Nat) (hk : k < l.length) :
    (pointAt p l k).offset = p.offset + k := by
  induction l generalizing p k with
  | nil => simp at hk
  | cons c cs ih =>
      cases k with
      | zero => simp [pointAt]
      | succ k =>
          have hk' : k < cs.length := by simpa using hk
          rw [pointAt, ih _ _ hk', advancePt_offset]
          push_cast
          ring

/-- Strict lexicographic order on (line, column); `advancePt` strictly
increases it, which is what makes `Location.offset` invert `Location.point`. -/
def ptLexLt (p q : Pt) : Prop :=
  p.line < q.line ∨ (p.line = q.line ∧ p.column < q.column)

theorem advancePt_lexLt (p : Pt) (c : Char) : ptLexLt p (advancePt p c) := by
  unfold advancePt ptLexLt
  split
  · left
    show p.line < p.line + 1
    omega
  · right
    refine ⟨rfl, ?_⟩
    show p.column < p.column + 1
    omega

theorem ptLexLt_trans {p q r : Pt} (h1 : ptLexLt p q) (h2 : ptLexLt q r) : ptLexLt p r := by
  unfold ptLexLt at *
  rcases h1 with h1 | ⟨h1a, h1b⟩ <;> rcases h2 with h2 | ⟨h2a, h2b⟩
  · left; omega
  · left; omega
  · left; omega
  · right; exact ⟨h1a.trans h2a, h1b.trans h2b⟩

theorem ptLexLt_ne {p q : Pt} (h : ptLexLt p q) :
    ¬(p.line = q.line ∧ p.column = q.column) := by
  rintro ⟨hl, hc⟩
  rcases h with h | ⟨_, h⟩ <;> omega

theorem pointAt_lexLe (p : Pt) (l : List Char) (k : Nat) :
    p = pointAt p l k ∨ ptLexLt p (pointAt p l k) := by
  induction l generalizing p k with
  | nil => cases k <;> simp [pointAt]
  | cons c cs ih =>
      cases k with
      | zero => simp [pointAt]
      | succ k =>
          rw [pointAt]
          rcases ih (advancePt p c) k with h | h
          · right; rw [← h]; exact advancePt_lexLt p c
          · right; exact ptLexLt_trans (advancePt_lexLt p c) h

theorem List.find?_congr {α : Type} (f g : α → Bool) (l : List α)
    (h : ∀ x, f x = g x) : l.find? f = l.find? g := by
  induction l with
  | nil => rfl
  | cons a as ih => simp only [List.find?, h a]; split <;> simp_all

/-- The offset-directed scan finds exactly the point `k` characters in. -/
theorem find?_offset_scanPts (p : Pt) (l : List Char) (k : Nat) (hk : k < l.length) :
    (scanPts p l).find? (fun q => decide (q.offset = p.offset + k)) =
      some (pointAt p l k) := by
  induction l generalizing p k with
  | nil => simp at hk
  | cons c cs ih =>
      cases k with
      | zero => simp [scanPts, pointAt, List.find?]
      | succ k =>
          have hk' : k < cs.length := by simpa using hk
          have hne : ¬(p.offset = p.offset + ((k : Nat) + 1 : Nat)) := by omega
          rw [scanPts, List.find?]
          rw [decide_eq_false hne]
          have := ih (advancePt p c) k hk'
          rw [pointAt]
          rw [← this]
          apply List.find?_congr
          intro x
          have heq : p.offset + (((k : Nat) + 1 : Nat) : Int) = (advancePt p c).offset + (k : Int) := by
            rw [advancePt_offset]
            push_cast
            ring
          rw [heq]

/-- The line/column-directed scan finds exactly the point `k` characters in:
earlier points are lexicographically smaller, so they cannot match. -/
theorem find?_linecol_scanPts (p : Pt) (l : List Char) (k : Nat) (hk : k < l.length) :
    (scanPts p l).find?
        (fun q => decide (q.line = (pointAt p l k).line ∧ q.column = (pointAt p l k).column)) =
      some (pointAt p l k) := by
  induction l generalizing p k with
  | nil => simp at hk
  | cons c cs ih =>
      cases k with
      | zero => simp [scanPts, pointAt, List.find?]
      | succ k =>
          have hk' : k < cs.length := by simpa using hk
          have hlt : ptLexLt p (pointAt p (c :: cs) (k + 1)) := by
            rw [pointAt]
            rcases pointAt_lexLe (advancePt p c) cs k with h | h
            · rw [← h]; exact advancePt_lexLt p c
            · exact ptLexLt_trans (advancePt_lexLt p c) h
          have hne := ptLexLt_ne hlt
          rw [scanPts, List.find?]
          rw [pointAt] at hne ⊢
          rw [decide_eq_false hne]
          exact ih (advancePt p c) k hk'

theorem mem_scanPts (q : Pt) (p : Pt) (l : List Char) (h : q ∈ scanPts p l) :
    ∃ k, k < l.length ∧ q = pointAt p l k := by
  induction l generalizing p with
  | nil => simp [scanPts] at h
  | cons c cs ih =>
      rw [scanPts] at h
      rcases List.mem_cons.mp h with h | h
      · exact ⟨0, by simp, h⟩
      · rcases ih (advancePt p c) h with ⟨k, hk, hq⟩
        exact ⟨k + 1, by simpa using hk, by rw [pointAt]; exact hq⟩

/-- Number of line-terminator characters in a list; `1 + lbCount doc` is the
number of lines `Location` can visit in `doc`. -/
def lbCount (l : List Char) : Nat := l.countP (fun c => isLineBreak c)

theorem pointAt_line_eq (p : Pt) (l : List Char) (k : Nat) :
    (pointAt p l k).line = p.line + lbCount (l.take k) := by
  induction l generalizing p k with
  | nil => cases k <;> simp [pointAt, lbCount]
  | cons c cs ih =>
      cases k with
      | zero => simp [pointAt, lbCount]
      | succ k =>
          rw [pointAt, ih]
          rw [advancePt_line]
          simp only [List.take_succ_cons, lbCount, List.countP_cons]
          by_cases hc : isLineBreak c = true <;> simp [hc] <;> push_cast <;> ring

theorem pointAt_line_ge (p : Pt) (l : List Char) (k : Nat) :
    p.line ≤ (pointAt p l k).line := by
  rw [pointAt_line_eq]
  omega

theorem pointAt_column_ge (p : Pt) (l : List Char) (k : Nat) (h : 1 ≤ p.column) :
    1 ≤ (pointAt p l k).column := by
  induction l generalizing p k with
  | nil => cases k <;> simpa [pointAt]
  | cons c cs ih =>
      cases k with
      | zero => simpa [pointAt]
      | succ k =>
          rw [pointAt]
          apply ih
          unfold advancePt
          split
          · show (1 : Int) ≤ 1
            omega
          · show (1 : Int) ≤ p.column + 1
            omega

theorem Location.point_found {L : Location} {o : Int} {w : Pt}
    (h : L.pts.find? (fun q => decide (q.offset = o)) = some w) : L.point o = w := by
  unfold Location.point
  rw [h]

theorem Location.point_notfound {L : Location} {o : Int}
    (h : L.pts.find? (fun q => decide (q.offset = o)) = none) : L.point o = Pt.invalid o := by
  unfold Location.point
  rw [h]

theorem Location.offset_found {L : Location} {p : Pt} {w : Pt}
    (h : L.pts.find? (fun q => decide (q.line = p.line ∧ q.column = p.column)) = some w) :
    L.offset p = w.offset := by
  unfold Location.offset
  rw [h]

theorem Location.offset_notfound {L : Location} {p : Pt}
    (h : L.pts.find? (fun q => decide (q.line = p.line ∧ q.column = p.column)) = none) :
    L.offset p = -1 := by
  unfold Location.offset
  rw [h]

/-- For an offset `o ≤ length`, `Location.point` returns the scan point `o`
characters in. -/
theorem Location.ofDoc_point_nat (doc : List Char) (o : Nat) (ho : o ≤ doc.length) :
    (Location.ofDoc doc).point (o : Int) = pointAt ⟨1, 1, 0⟩ (doc ++ ['\n']) o := by
  have hlen : o < (doc ++ ['\n']).length := by
    simp only [List.length_append, List.length_cons, List.length_nil]
    omega
  have hfind := find?_offset_scanPts ⟨1, 1, 0⟩ (doc ++ ['\n']) o hlen
  apply Location.point_found
  show (scanPts ⟨1, 1, 0⟩ (doc ++ ['\n'])).find? _ = _
  rw [← hfind]
  apply List.find?_congr
  intro x
  norm_num

/-- `Location.offset` of a scan point recovers that point's offset. -/
theorem Location.ofDoc_offset_pointAt (doc : List Char) (o : Nat)
    (ho : o < (doc ++ ['\n']).length) :
    (Location.ofDoc doc).offset (pointAt ⟨1, 1, 0⟩ (doc ++ ['\n']) o) =
      (pointAt ⟨1, 1, 0⟩ (doc ++ ['\n']) o).offset :=
  Location.offset_found (find?_linecol_scanPts ⟨1, 1, 0⟩ (doc ++ ['\n']) o ho)

/-- C1. **Round trip for `Location` point/offset conversion** (spec §8
"Round trip"; src/src/location.ts `offset`/`point`/`#pt`): for every
document and every offset `o` in `[0, length]`, `offset(point(o)) = o`;
and for every valid point produced by `point` (valid meaning the scan found
it, i.e. `line ≠ -1`), `point(offset(p)) = p`. -/
theorem c1_location_point_offset_round_trip :
    (∀ (doc : List Char) (o : Nat), o ≤ doc.length →
      (Location.ofDoc doc).offset ((Location.ofDoc doc).point (o : Int)) = (o : Int)) ∧
    (∀ (doc : List Char) (q : Int), ((Location.ofDoc doc).point q).line ≠ -1 →
      (Location.ofDoc doc).point ((Location.ofDoc doc).offset ((Location.ofDoc doc).point q)) =
        (Location.ofDoc doc).point q) := by
  constructor
  · intro doc o ho
    have hlen : o < (doc ++ ['\n']).length := by
      simp only [List.length_append, List.length_cons, List.length_nil]
      omega
    rw [Location.ofDoc_point_nat doc o ho]
    rw [Location.ofDoc_offset_pointAt doc o hlen]
    rw [pointAt_offset _ _ _ hlen]
    norm_num
  · intro doc q hline
    rcases hfind : (Location.ofDoc doc).pts.find? (fun p => decide (p.offset = q)) with _ | w
    · exfalso
      apply hline
      rw [Location.point_notfound hfind]
      rfl
    · have hpoint : (Location.ofDoc doc).point q = w := Location.point_found hfind
      have hw : w ∈ (Location.ofDoc doc).pts := List.mem_of_find?_eq_some hfind
      rcases mem_scanPts w ⟨1, 1, 0⟩ (doc ++ ['\n']) hw with ⟨k, hk, hwk⟩
      have hoff : w.offset = (k : Int) := by
        rw [hwk, pointAt_offset _ _ _ hk]
        norm_num
      have hoffw : (Location.ofDoc doc).offset w = w.offset := by
        rw [hwk]
        exact Location.ofDoc_offset_pointAt doc k hk
      rw [hpoint, hoffw, hoff]
      rw [Location.ofDoc_point_nat doc k (by
        simp only [List.length_append, List.length_cons, List.length_nil] at hk
        omega)]
      rw [hwk]

/-- Witness for `c1_location_point_offset_round_trip` at the document
`"a\nb"` and offset 2. -/
theorem c1_location_point_offset_round_trip_witness :
    (Location.ofDoc ['a', '\n', 'b']).offset
        ((Location.ofDoc ['a', '\n', 'b']).point ((2 : Nat) : Int)) = ((2 : Nat) : Int) ∧
    (Location.ofDoc ['a', '\n', 'b']).point
        ((Location.ofDoc ['a', '\n', 'b']).offset
          ((Location.ofDoc ['a', '\n', 'b']).point (2 : Int))) =
      (Location.ofDoc ['a', '\n', 'b']).point (2 : Int) :=
  ⟨c1_location_point_offset_round_trip.1 ['a', '\n', 'b'] 2 (by decide),
   c1_location_point_offset_round_trip.2 ['a', '\n', 'b'] 2 (by decide)⟩

/-- Every point the `Location` scan visits is the point `k` characters in,
for some `k ≤ length`. -/
theorem Location.ofDoc_pts_mem (doc : List Char) (x : Pt)
    (hx : x ∈ (Location.ofDoc doc).pts) :
    ∃ k, k ≤ doc.length ∧ x = pointAt ⟨1, 1, 0⟩ (doc ++ ['\n']) k := by
  rcases mem_scanPts x ⟨1, 1, 0⟩ (doc ++ ['\n']) hx with ⟨k, hk, hxk⟩
  refine ⟨k, ?_, hxk⟩
  simp only [List.length_append, List.length_cons, List.length_nil] at hk
  omega

theorem Location.ofDoc_pts_offset (doc : List Char) (x : Pt)
    (hx : x ∈ (Location.ofDoc doc).pts) :
    ∃ k, k ≤ doc.length ∧ x.offset = (k : Int) := by
  rcases Location.ofDoc_pts_mem doc x hx with ⟨k, hk, hxk⟩
  refine ⟨k, hk, ?_⟩
  rw [hxk, pointAt_offset]
  · norm_num
  · simp only [List.length_append, List.length_cons, List.length_nil]
    omega

theorem Location.ofDoc_pts_line (doc : List Char) (x : Pt)
    (hx : x ∈ (Location.ofDoc doc).pts) :
    1 ≤ x.line ∧ x.line ≤ 1 + (lbCount doc : Int) := by
  rcases Location.ofDoc_pts_mem doc x hx with ⟨k, hk, hxk⟩
  have hline := pointAt_line_eq (⟨1, 1, 0⟩ : Pt) (doc ++ ['\n']) k
  have htake : (doc ++ ['\n']).take k = doc.take k :=
    List.take_append_of_le_length hk
  have hcount : lbCount (doc.take k) ≤ lbCount doc :=
    (List.take_sublist k doc).countP_le _
  rw [htake] at hline
  rw [show ((⟨1, 1, 0⟩ : Pt).line) = 1 from rfl] at hline
  rw [hxk, hline]
  constructor <;> omega

theorem Location.ofDoc_pts_column (doc : List Char) (x : Pt)
    (hx : x ∈ (Location.ofDoc doc).pts) : 1 ≤ x.column := by
  rcases Location.ofDoc_pts_mem doc x hx with ⟨k, _, hxk⟩
  rw [hxk]
  exact pointAt_column_ge _ _ _ (by norm_num)

/-- C8. **Out-of-range point/offset conversion yields sentinels, never
throws** (spec §8 "Boundary", §7; src/src/location.ts `point`/`offset`):
`point(-1)`, `point(length+1)`, and `point` at any non-integer offset
return the invalid point `{line: -1, column: -1, offset: <given>}`;
`offset` returns `-1` for a point whose column is 0, whose line is 0, or
whose line exceeds the number of lines of the document. -/
theorem c8_location_out_of_range_sentinels :
    (∀ doc : List Char, (Location.ofDoc doc).point (-1) = Pt.invalid (-1)) ∧
    (∀ doc : List Char,
      (Location.ofDoc doc).point ((doc.length : Int) + 1) = Pt.invalid ((doc.length : Int) + 1)) ∧
    (∀ (doc : List Char) (q : ℚ), (∀ n : Int, q ≠ (n : ℚ)) →
      (Location.ofDoc doc).pointQ q = ⟨-1, -1, q⟩) ∧
    (∀ (doc : List Char) (p : Pt), p.column = 0 → (Location.ofDoc doc).offset p = -1) ∧
    (∀ (doc : List Char) (p : Pt), p.line = 0 → (Location.ofDoc doc).offset p = -1) ∧
    (∀ (doc : List Char) (p : Pt), 1 + (lbCount doc : Int) < p.line →
      (Location.ofDoc doc).offset p = -1) := by
  refine ⟨?_, ?_, ?_, ?_, ?_, ?_⟩
  · intro doc
    apply Location.point_notfound
    rw [List.find?_eq_none]
    intro x hx
    rcases Location.ofDoc_pts_offset doc x hx with ⟨k, _, hko⟩
    simp only [decide_eq_true_eq]
    omega
  · intro doc
    apply Location.point_notfound
    rw [List.find?_eq_none]
    intro x hx
    rcases Location.ofDoc_pts_offset doc x hx with ⟨k, hk, hko⟩
    simp only [decide_eq_true_eq]
    omega
  · intro doc q hq
    unfold Location.pointQ
    have : (Location.ofDoc doc).pts.find? (fun p => decide ((p.offset : ℚ) = q)) = none := by
      rw [List.find?_eq_none]
      intro x hx
      simp only [decide_eq_true_eq]
      intro h
      exact hq x.offset h.symm
    rw [this]
  · intro doc p hp
    apply Location.offset_notfound
    rw [List.find?_eq_none]
    intro x hx
    have := Location.ofDoc_pts_column doc x hx
    simp only [decide_eq_true_eq]
    rintro ⟨_, hc⟩
    omega
  · intro doc p hp
    apply Location.offset_notfound
    rw [List.find?_eq_none]
    intro x hx
    have := Location.ofDoc_pts_line doc x hx
    simp only [decide_eq_true_eq]
    rintro ⟨hl, _⟩
    omega
  · intro doc p hp
    apply Location.offset_notfound
    rw [List.find?_eq_none]
    intro x hx
    have := Location.ofDoc_pts_line doc x hx
    simp only [decide_eq_true_eq]
    rintro ⟨hl, _⟩
    omega

/-- Witness for `c8_location_out_of_range_sentinels` at the document `"a"`,
the non-integer offset `7/2`, and concrete out-of-range points. -/
theorem c8_location_out_of_range_sentinels_witness :
    (Location.ofDoc ['a']).point (-1) = Pt.invalid (-1) ∧
    (Location.ofDoc ['a']).pointQ (⟨7, 2, by decide, by decide⟩ : ℚ) =
      ⟨-1, -1, (⟨7, 2, by decide, by decide⟩ : ℚ)⟩ ∧
    (Location.ofDoc ['a']).offset ⟨1, 0, 0⟩ = -1 ∧
    (Location.ofDoc ['a']).offset ⟨0, 1, 0⟩ = -1 ∧
    (Location.ofDoc ['a']).offset ⟨2, 1, 0⟩ = -1 := by
  refine ⟨c8_location_out_of_range_sentinels.1 ['a'], ?_, ?_, ?_, ?_⟩
  · apply c8_location_out_of_range_sentinels.2.2.1 ['a']
    intro n h
    have hden := congrArg Rat.den h
    rw [Rat.den_intCast] at hden
    exact absurd hden (by decide)
  · exact c8_location_out_of_range_sentinels.2.2.2.1 ['a'] ⟨1, 0, 0⟩ rfl
  · exact c8_location_out_of_range_sentinels.2.2.2.2.1 ['a'] ⟨0, 1, 0⟩ rfl
  · exact c8_location_out_of_range_sentinels.2.2.2.2.2 ['a'] ⟨2, 1, 0⟩ (by decide)

/-!
## Reader (claim C9)

Two readers exist in the repository: the pipeline's character reader
(src/unnamed/part_009, `docast-util-from-docs/Reader`, extending `Location`)
and the test-fixture reader (src/unnamed/part_000, `fixtures/Reader`).
Their `read` methods differ: the pipeline reader neither clamps the new
position nor asserts at end of document, while the fixture reader does both.
-/

/-- The pipeline character reader (src/unnamed/part_009): a source document
plus the current position.  (The `Location` base-class state is irrelevant to
`read` and omitted.) -/
structure Reader where
  document : List Char
  position : Int
deriving DecidableEq, Repr

/-- JS `document[i]`: the character at index `i`, or `undefined` (here
`none`) when `i` is negative or past the end. -/
def charAt (doc : List Char) (i : Int) : Option Char :=
  if h : 0 ≤ i ∧ i < (doc.length : Int) then
    some (doc.get ⟨i.toNat, by omega⟩)
  else
    none

/-- `Reader.read` (src/unnamed/part_009 lines 137-141):
`return this.document[this.position += k] ?? null` — the position is
advanced by `k` with no clamping and no end-of-document check, and the
character at the new position (or `null`) is returned. -/
def Reader.read (r : Reader) (k : Int) : Reader × Option Char :=
  (⟨r.document, r.position + k⟩, charAt r.document (r.position + k))

/-- `Reader.eof` (src/unnamed/part_009 lines 68-70). -/
def Reader.eof (r : Reader) : Bool := decide (r.position ≥ (r.document.length : Int))

/-- The test-fixture reader (src/unnamed/part_000). -/
structure FixtureReader where
  document : List Char
  position : Int
deriving DecidableEq, Repr

/-- `FixtureReader.eof` (src/unnamed/part_000 lines 76-78). -/
def FixtureReader.eof (r : FixtureReader) : Bool :=
  decide (r.position ≥ (r.document.length : Int))

/-- JS `clamp(x, 0, len)`. -/
def clampInt (x lo hi : Int) : Int := max lo (min x hi)

/-- `FixtureReader.read` (src/unnamed/part_000 lines 192-197):
asserts `!this.eof` (embedded as returning `none` on assertion failure),
clamps the new position to `[0, document.length]`, and returns the code
point at the new position or `null`. -/
def FixtureReader.read (r : FixtureReader) (k : Int) :
    Option (FixtureReader × Option Char) :=
  if r.eof then
    none
  else
    let p := clampInt (r.position + k) 0 (r.document.length : Int)
    some (⟨r.document, p⟩, charAt r.document p)

/-- C9 counterexample.  The claim says `Reader.read(k)` clamps the new
position to `[0, length]` and fails an assertion when called at end of
document.  The pipeline `Reader` (src/unnamed/part_009) does neither: on the
one-character document `"a"` with the cursor already at end (position 1),
`read(1)` succeeds and leaves the cursor at position 2, outside `[0, 1]`. -/
theorem c9_reader_read_counterexample :
    ((Reader.read ⟨['a'], 1⟩ 1).1.position = 2 ∧ ¬((2 : Int) ≤ 1)) ∧
    Reader.eof ⟨['a'], 1⟩ = true ∧
    (Reader.read ⟨['a'], 1⟩ 1).2 = none := by
  refine ⟨⟨rfl, by omega⟩, rfl, rfl⟩

/-- C9 (amended). **`read` behaviour of the two readers** (spec §4.2;
src/unnamed/part_009 `Reader.read`, src/unnamed/part_000 fixture
`Reader.read`): the fixture reader's `read(k)` clamps the new position to
`[0, length]`, returns the character at the new position (or null at/past
the end), and fails an assertion if called when already at end of document;
the pipeline reader's `read(k)` advances the position by `k` unclamped and
returns the character at the new position (or null), never failing. -/
theorem c9_reader_read_amended :
    (∀ (r : FixtureReader) (k : Int), r.eof = true → FixtureReader.read r k = none) ∧
    (∀ (r : FixtureReader) (k : Int), r.eof = false →
      FixtureReader.read r k =
        some (⟨r.document, clampInt (r.position + k) 0 (r.document.length : Int)⟩,
          charAt r.document (clampInt (r.position + k) 0 (r.document.length : Int)))) ∧
    (∀ (r : Reader) (k : Int),
      Reader.read r k = (⟨r.document, r.position + k⟩, charAt r.document (r.position + k))) := by
  refine ⟨?_, ?_, ?_⟩
  · intro r k h
    unfold FixtureReader.read
    rw [h]
    rfl
  · intro r k h
    unfold FixtureReader.read
    rw [h]
    rfl
  · intro r k
    rfl

/-- Witness for `c9_reader_read_amended` on the document `"ab"`. -/
theorem c9_reader_read_amended_witness :
    FixtureReader.read ⟨['a', 'b'], 2⟩ 1 = none ∧
    FixtureReader.read ⟨['a', 'b'], 0⟩ 5 =
      some (⟨['a', 'b'], clampInt (0 + 5) 0 2⟩, charAt ['a', 'b'] (clampInt (0 + 5) 0 2)) ∧
    Reader.read ⟨['a', 'b'], 0⟩ 5 = (⟨['a', 'b'], 0 + 5⟩, charAt ['a', 'b'] (0 + 5)) :=
  ⟨c9_reader_read_amended.1 ⟨['a', 'b'], 2⟩ 1 rfl,
   c9_reader_read_amended.2.1 ⟨['a', 'b'], 0⟩ 5 rfl,
   c9_reader_read_amended.2.2 ⟨['a', 'b'], 0⟩ 5⟩

/-!
## Lexer (src/src/lexer.ts, second class in the file; claims C2, C3, C5)

The rule regular expressions are embedded as executable anchored matchers on
character lists.  Each matcher's doc comment quotes the regex it translates;
lazy quantifiers become minimal-length searches and greedy quantifiers
maximal-length takes, with backtracking rendered as bounded existential
scans.
-/

/-- Lexer token kinds (src/src/enums/token-kind, string enum `TokenKind`:
`opener`, `tag`, `typeExpression`, `closer`, `delimiter`, `whitespace`,
`markdown`, `eof`). -/
inductive TokenKind where
  | opener
  | tag
  | typeExpression
  | closer
  | delimiter
  | whitespace
  | markdown
  | eof
deriving DecidableEq, Repr

/-- A lexer token (src/unnamed/part_019 `Token`): kind, start and end points,
and text.  The `end` field is named `stop` (`end` is a Lean keyword); the
`next` pointer is represented by adjacency in the token list. -/
structure Tok where
  kind : TokenKind
  start : Pt
  stop : Pt
  text : List Char
deriving DecidableEq, Repr

/-- JS `\w`: `[A-Za-z0-9_]`. -/
def wordChar (c : Char) : Bool :=
  (('a' ≤ c && c ≤ 'z') || ('A' ≤ c && c ≤ 'Z') || ('0' ≤ c && c ≤ '9') || c = '_')

/-- JS `\s`: whitespace characters (ASCII part plus the BMP space characters
JS includes; all claim inputs are ASCII). -/
def jsSpace (c : Char) : Bool :=
  c = ' ' || c = '\t' || c = '\n' || c = '\r' || c = '\x0b' || c = '\x0c' ||
  c = ' ' || c = ' ' || (' ' ≤ c && c ≤ ' ') ||
  c = ' ' || c = ' ' || c = ' ' || c = ' ' || c = '　' ||
  c = '﻿'

/-- Opener rule `/^\/\*{2}/` (multiline mode off). -/
def matchOpener : List Char → Option (List Char)
  | '/' :: '*' :: '*' :: _ => some ['/', '*', '*']
  | _ => none

/-- Closer rule `/^\*\//`. -/
def matchCloser : List Char → Option (List Char)
  | '*' :: '/' :: _ => some ['*', '/']
  | _ => none

/-- Delimiter rule `/^\*/`. -/
def matchDelimiter : List Char → Option (List Char)
  | '*' :: _ => some ['*']
  | _ => none

/-- Whitespace rule `/^\s/`. -/
def matchWhitespace : List Char → Option (List Char)
  | c :: _ => if jsSpace c then some [c] else none
  | [] => none

/-- Tag rule `/^@\b\S+/`: `@`, a word boundary (so the next character must be
a word character), then a maximal non-space run. -/
def matchTag : List Char → Option (List Char)
  | '@' :: c :: rest =>
      if wordChar c then some ('@' :: (c :: rest).takeWhile (fun d => !jsSpace d)) else none
  | _ => none

/-- Type-expression rule `/^{[^@].*?}?}/s`: `{`, one non-`@` character, then
the lazy `.*?}?}` ends the match at the first `}` thereafter — including the
following character as well when it is also `}` (the greedy `}?` succeeds
exactly then). -/
def matchTypeExpression : List Char → Option (List Char)
  | '{' :: c :: rest =>
      if c = '@' then none
      else
        match rest.findIdx? (fun d => d = '}') with
        | none => none
        | some i =>
            match rest.drop (i + 1) with
            | '}' :: _ => some ('{' :: c :: rest.take (i + 2))
            | _ => some ('{' :: c :: rest.take (i + 1))
  | _ => none

/-- The `@\S+\b` negative lookahead inside the markdown rule: after `@` and a
first non-space character, scan for a word boundary reachable by extending
`\S+`; at each step the boundary test compares word-ness of the previous and
current character, and `\S+` may extend only over non-space characters. -/
def tagStopScan : Char → List Char → Bool
  | prev, [] => wordChar prev
  | prev, c :: cs => (wordChar prev != wordChar c) || (!jsSpace c && tagStopScan c cs)

/-- `(?:@\S+\b)` anchored: the negative lookahead of the markdown rule. -/
def negTag : List Char → Bool
  | '@' :: c :: rest => !jsSpace c && tagStopScan c rest
  | _ => false

/-- `(?:{[^@].*?})` anchored: `{`, one non-`@` character, then any characters
up to some `}`. -/
def negTypeExpression : List Char → Bool
  | '{' :: c :: rest => c ≠ '@' && rest.any (fun d => d = '}')
  | _ => false

/-- First lookahead alternative `(?=[\t\n\r ]*\*\/)`: skip a run of
tab/newline/carriage-return/space, then `*/`.  (`*` is not in the skipped
class, so the greedy run is forced.) -/
def lookahead_closer (t : List Char) : Bool :=
  match t.dropWhile (fun c => c = '\t' || c = '\n' || c = '\r' || c = ' ') with
  | '*' :: '/' :: _ => true
  | _ => false

/-- After the `\*` of the second lookahead alternative: `[\t ]*(?<!{)@\b\S+`.
The look-behind `(?<!{)` is always satisfied here, because the character
before the `@`-test position is the matched `*` or a tab/space. -/
def lookahead_tag_at (t : List Char) : Bool :=
  match t.dropWhile (fun c => c = '\t' || c = ' ') with
  | '@' :: c :: _ => wordChar c
  | _ => false

/-- Second lookahead alternative `(?=[\t\n\r *]*\*[\t ]*(?<!{)@\b\S+)`:
within the (backtrackable) run of `[\t\n\r *]`, some position must hold a
`*` followed by `[\t ]*@` and a word character. -/
def lookahead_tag : List Char → Bool
  | [] => false
  | c :: cs =>
      if c = '\t' || c = '\n' || c = '\r' || c = ' ' || c = '*' then
        (c = '*' && lookahead_tag_at cs) || lookahead_tag cs
      else false

/-- The lazy `.+?(?=...)` search of the markdown rule: the minimal match
length `j ≥ 2` at which one of the two lookaheads succeeds.  `consumed` is
the length consumed so far and `t` the rest of the input. -/
def mdScan : Nat → List Char → Option Nat
  | consumed, t =>
      if lookahead_closer t || lookahead_tag t then some consumed
      else
        match t with
        | [] => none
        | _ :: t' => mdScan (consumed + 1) t'

/-- Markdown rule
`/^(?!(?:\*\/)|(?:\*\s)|(?:@\S+\b)|(?:{[^@].*?}))\S.+?(?=(?:[\t\n\r ]*\*\/)|(?:[\t\n\r *]*\*[\t ]*(?<!{)@\b\S+))/s`:
four negative lookaheads, then one non-space character, then a lazy run of at
least one further character ending at the earliest position where a
lookahead alternative matches. -/
def matchMarkdown (s : List Char) : Option (List Char) :=
  match s with
  | c :: _ :: _ =>
      if (matchCloser s).isSome then none
      else if (match s with | '*' :: d :: _ => jsSpace d | _ => false) then none
      else if negTag s then none
      else if negTypeExpression s then none
      else if jsSpace c then none
      else
        match mdScan 2 (s.drop 2) with
        | some j => some (s.take j)
        | none => none
  | _ => none


/-- Dispatch of the rule table (src/src/lexer.ts `rules`, second class):
`[opener, tag, typeExpression, closer, delimiter, whitespace, markdown]`,
each paired with its keep flag. -/
def ruleMatch : TokenKind → List Char → Option (List Char)
  | .opener, s => matchOpener s
  | .tag, s => matchTag s
  | .typeExpression, s => matchTypeExpression s
  | .closer, s => matchCloser s
  | .delimiter, s => matchDelimiter s
  | .whitespace, s => matchWhitespace s
  | .markdown, s => matchMarkdown s
  | .eof, _ => none

/-- The rule table in priority order with keep flags (src/src/lexer.ts
`rules`, second class: delimiter and whitespace are discarded). -/
def lexRules : List (Bool × TokenKind) :=
  [(true, .opener), (true, .tag), (true, .typeExpression), (true, .closer),
   (false, .delimiter), (false, .whitespace), (true, .markdown)]

/-- Mutable lexer state: reader position, the inside-comment flag, and the
token list built so far. -/
structure LexState where
  idx : Nat
  comment : Bool
  toks : List Tok
deriving DecidableEq, Repr

/-- `Lexer.now()` (second class): `this.reader.point(this.reader.index)`. -/
def lexNow (doc : List Char) (idx : Nat) : Pt :=
  (Location.ofDoc doc).point (idx : Int)

/-- `Lexer.tokenizeMatch` with the `enter`/`exit` calls it brackets the
consumption with (src/src/lexer.ts second class, lines 754-775 together with
`enter` 625-643 and `exit` 657-675): for a kept kind, `enter` records
`start = now()` (and raises the comment flag on `opener`), the matched
characters are consumed one by one, and `exit` records `end = now()` (and
lowers the flag on `closer`).  `enter`'s provisional `end = reader.point(-1)`
is immediately overwritten by `exit` and is not represented. -/
def emitTok (doc : List Char) (st : LexState) (kind : TokenKind) (chars : List Char)
    (keep : Bool) : LexState :=
  let start := lexNow doc st.idx
  let idx' := st.idx + chars.length
  let stop := lexNow doc idx'
  if keep then
    { idx := idx',
      comment := if kind = .opener then true else if kind = .closer then false else st.comment,
      toks := st.toks ++ [⟨kind, start, stop, chars⟩] }
  else
    { st with idx := idx' }

/-- One pass over the rule table (the `for` loop in `Lexer.tokenize`, second
class, lines 714-729): each rule is tried in order against the reader's
current slice — later rules see the state left by earlier ones, as the
source loop has no `break` — and fires only when inside a comment or for the
opener rule. -/
def lexRulesPass (doc : List Char) (st : LexState) : LexState × Bool :=
  lexRules.foldl
    (fun (acc : LexState × Bool) rule =>
      let (st, consumed) := acc
      let (keep, kind) := rule
      match ruleMatch kind (doc.drop st.idx) with
      | some chars =>
          if kind = .opener ∨ st.comment then (emitTok doc st kind chars keep, true)
          else (st, consumed)
      | none => (st, consumed))
    (st, false)

/-- The `while (!this.reader.eof)` loop of `Lexer.tokenize` (second class,
lines 703-739): run the rule pass; if nothing fired, consume one character.
Fuel-indexed: each iteration advances the reader, so `doc.length + 1` fuel
always finishes the scan. -/
def lexLoop (doc : List Char) : Nat → LexState → LexState
  | 0, st => st
  | fuel + 1, st =>
      if st.idx ≥ doc.length then st
      else
        let (st', consumed) := lexRulesPass doc st
        lexLoop doc fuel (if consumed then st' else { st' with idx := st'.idx + 1 })

/-- `Lexer.tokenize` (second class): scan the whole document; the token
sequence (`this.tokens`, whose head/`next` chain the parser consumes). -/
def lexTokens (doc : List Char) : List Tok :=
  (lexLoop doc (doc.length + 1) ⟨0, false, []⟩).toks


/-!
## Syntax tree nodes and the typescript-parsec combinators (claims C2-C7)
-/

/-- Node types (src/src/enums/types.ts, string enum `types`).  The enum value
`break` is rendered `brk` and `delete` is rendered `del` (Lean keywords);
every other constructor name equals its enum value. -/
inductive NodeTy where
  | blockTag
  | blockquote
  | brk
  | code
  | comment
  | containerDirective
  | definition
  | del
  | description
  | emphasis
  | footnoteDefinition
  | footnoteReference
  | heading
  | html
  | image
  | imageReference
  | inlineCode
  | inlineTag
  | leafDirective
  | link
  | linkReference
  | list
  | listItem
  | paragraph
  | root
  | strong
  | table
  | tableCell
  | tableRow
  | text
  | textDirective
  | thematicBreak
  | typeExpression
deriving DecidableEq, Repr

/-- A node position: `{ start, end }` (`end` rendered `stop`). -/
structure Pos where
  start : Pt
  stop : Pt
deriving DecidableEq, Repr

/-- A syntax tree node (docast and mdast vocabularies merged, as in the
source where mdast nodes are spliced into docast parents).  `val` is the
`value` field (text/code/typeExpression/inlineTag), `nm` the `name` field
(blockTag/inlineTag), `hard`/`blank` the `data.hard`/`data.blank` break
flags; fields that a node type does not carry stay at their defaults
(`[]`/`false`).  The source's `root` node has no position; its `pos` field
here is a dummy and is never inspected. -/
inductive Node where
  | mk (ty : NodeTy) (pos : Pos) (val : List Char) (nm : List Char)
      (hard : Bool) (blank : Bool) (children : List Node)
deriving Repr

def Node.ty : Node → NodeTy
  | .mk t _ _ _ _ _ _ => t

def Node.pos : Node → Pos
  | .mk _ p _ _ _ _ _ => p

def Node.val : Node → List Char
  | .mk _ _ v _ _ _ _ => v

def Node.nm : Node → List Char
  | .mk _ _ _ n _ _ _ => n

def Node.hard : Node → Bool
  | .mk _ _ _ _ h _ _ => h

def Node.blank : Node → Bool
  | .mk _ _ _ _ _ b _ => b

def Node.children : Node → List Node
  | .mk _ _ _ _ _ _ c => c

mutual

def Node.beq : Node → Node → Bool
  | .mk t1 p1 v1 n1 h1 b1 c1, .mk t2 p2 v2 n2 h2 b2 c2 =>
      t1 == t2 && p1 == p2 && v1 == v2 && n1 == n2 && h1 == h2 && b1 == b2 &&
        Node.beqList c1 c2

def Node.beqList : List Node → List Node → Bool
  | [], [] => true
  | a :: as, b :: bs => Node.beq a b && Node.beqList as bs
  | _, _ => false

end

instance : BEq Node := ⟨Node.beq⟩


/-!
## Markdown Bridge: `Parser.applyMarkdown` (part_018, second class,
lines 1473-1948)
-/

/-- Split a string at JS multiline-`^` positions: each element is a line body
paired with its terminating line-break character (none for the last line).
With the `m` flag, `^` matches at the string start and after every `\n` and
`\r`, so `"a\r\nb"` has three lines. -/
def splitLines : List Char → List (List Char × Option Char)
  | [] => [([], none)]
  | c :: cs =>
      if isLineBreak c then ([], some c) :: splitLines cs
      else
        match splitLines cs with
        | (l, t) :: rest => (c :: l, t) :: rest
        | [] => [([c], none)]

/-- Length of the comment-delimiter match `(?:[\t ]*\*[\t ]{0,2})?` at a line
start: a greedy tab/space run, a `*`, then up to two tabs/spaces — or an
empty match when there is no `*`. -/
def delimLen (line : List Char) : Nat :=
  let ws := line.takeWhile (fun c => c = '\t' || c = ' ')
  match line.drop ws.length with
  | '*' :: rest => ws.length + 1 + min 2 (rest.takeWhile (fun c => c = '\t' || c = ' ')).length
  | _ => 0

/-- The `value.replaceAll(/^(?:[\t ]*\*[\t ]{0,2})?/gm, ...)` pass of
`applyMarkdown` (lines 1506-1513), result value: every line's delimiter
match replaced by the empty string. -/
def uncommentValue (s : List Char) : List Char :=
  ((splitLines s).map (fun lt =>
    (lt.1.drop (delimLen lt.1)) ++ (match lt.2 with | some c => [c] | none => []))).flatten

/-- The `map` built by the same pass: per line, the pair of the
source-relative line number `token.start.line + index` and the number of
columns removed — the delimiter match length, except that the first line
records `token.start.column - 1` instead. -/
def uncommentMap (s : List Char) (startPt : Pt) : List (Int × Int) :=
  (splitLines s).enum.map (fun il =>
    (startPt.line + il.1, if il.1 = 0 then startPt.column - 1 else (delimLen il.2.1 : Int)))

/-- `template('```\n{value}\n```', { value })` (line 1516). -/
def fenceValue (v : List Char) : List Char :=
  ['`', '`', '`', '\n'] ++ v ++ ['\n', '`', '`', '`']

/-- The column-shift loop of the first `applyMarkdown` transform (lines
1769-1786): for map entry number `i` (a 1-based md-local line `i + 1`), a
node starting on that line has its start column shifted by the removed
count, and likewise for its end column unless the node is a `break`. -/
def shiftColumns (map : List (Int × Int)) (isBrk : Bool) (p : Pos) : Pos :=
  map.enum.foldl
    (fun (p : Pos) ie =>
      let line : Int := (ie.1 : Int) + 1
      let removed := ie.2.2
      let p :=
        if p.start.line = line then
          { p with start := { p.start with column := p.start.column + removed } }
        else p
      if p.stop.line = line ∧ ¬isBrk then
        { p with stop := { p.stop with column := p.stop.column + removed } }
      else p)
    p

/-- The per-node body of the first `applyMarkdown` transform (lines
1755-1811): shift columns by the uncomment map, shift the start line by
`token.start.line - 1` and recompute the start offset through the
`Location` built over the token text; then either pin a fenced `code` node's
end to the token end, or (for `break` nodes) force the end column to 1 plus
the remapped start column when the break is hard, and recompute the end line
from the node's original line span and the end offset through the
`Location`. -/
def remapPos (map : List (Int × Int)) (tok : Tok) (code : Bool) (loc : Location)
    (ty : NodeTy) (hard : Bool) (p : Pos) : Pos :=
  let span := p.stop.line - p.start.line
  let p := shiftColumns map (ty = .brk) p
  let startLine := p.start.line + tok.start.line - 1
  let start : Pt := ⟨startLine, p.start.column, loc.offset ⟨startLine, p.start.column, 0⟩⟩
  if code ∧ ty = .code then
    { start := start, stop := tok.stop }
  else
    let stopCol : Int :=
      if ty = .brk then (if hard then 1 + start.column else 1) else p.stop.column
    let stopLine := start.line + span
    let stop : Pt := ⟨stopLine, stopCol, loc.offset ⟨stopLine, stopCol, 0⟩⟩
    { start := start, stop := stop }

mutual

/-- The first `applyMarkdown` transform applied to a whole tree: `visit`
touches every node (the root included) and rewrites only its position. -/
def remapNode (map : List (Int × Int)) (tok : Tok) (code : Bool) (loc : Location) :
    Node → Node
  | .mk ty p v n h b cs =>
      .mk ty (remapPos map tok code loc ty h p) v n h b (remapNodes map tok code loc cs)

def remapNodes (map : List (Int × Int)) (tok : Tok) (code : Bool) (loc : Location) :
    List Node → List Node
  | [] => []
  | n :: ns => remapNode map tok code loc n :: remapNodes map tok code loc ns

end

/-- The break node inserted by the second `applyMarkdown` transform (lines
1823-1865) in front of a blank-flagged break: its span is the first
character of the raw blank line, located through the `Location`. -/
def blankBreakNode (loc : Location) (m : Node) : Node :=
  let offset := m.pos.start.offset - m.pos.start.column
  .mk .brk ⟨loc.point offset, loc.point (offset + 1)⟩ [] [] false false []

mutual

/-- The second `applyMarkdown` transform: insert a new `break` node before
every blank-flagged `break`; the visitor then skips past both
(`return index + 2`). -/
def insertBlankBreaks (loc : Location) : Node → Node
  | .mk ty p v n h b cs => .mk ty p v n h b (insertBlankBreaksList loc cs)

def insertBlankBreaksList (loc : Location) : List Node → List Node
  | [] => []
  | m :: rest =>
      if m.ty = .brk ∧ m.blank then
        blankBreakNode loc m :: m :: insertBlankBreaksList loc rest
      else
        insertBlankBreaks loc m :: insertBlankBreaksList loc rest

end

/-- The body of the third `applyMarkdown` transform (lines 1880-1940) on a
`text` node, given its previous sibling: when the value contains a newline,
either drop a leading newline after a hard break (adding the removed-column
count of the map entry whose line matches the start line, then relocating
the start point one character further), or force the end column to 1 when
the value ends with a newline, and replace every newline with a space. -/
def fixTextNode (loc : Location) (map : List (Int × Int)) (prev : Option Node) :
    Node → Node
  | .mk ty p v n h b cs =>
      if ty = .text ∧ v.any (fun c => isLineBreak c) then
        match prev with
        | some pn =>
            if pn.ty = .brk ∧ pn.hard then
              let add : Int :=
                match map.find? (fun e => decide (e.1 = p.start.line)) with
                | some e => e.2
                | none => 0
              let v' := v.drop 1
              let start' := loc.point (p.start.offset + add + 1)
              .mk ty { p with start := start' } v' n h b cs
            else
              let p' :=
                if v.getLast? = some '\n' ∨ v.getLast? = some '\r' then
                  let stopCol : Int := 1
                  { p with stop := ⟨p.stop.line, stopCol,
                      loc.offset ⟨p.stop.line, stopCol, 0⟩⟩ }
                else p
              .mk ty p' (v.map (fun c => if isLineBreak c then ' ' else c)) n h b cs
        | none =>
            let p' :=
              if v.getLast? = some '\n' ∨ v.getLast? = some '\r' then
                let stopCol : Int := 1
                { p with stop := ⟨p.stop.line, stopCol,
                    loc.offset ⟨p.stop.line, stopCol, 0⟩⟩ }
              else p
            .mk ty p' (v.map (fun c => if isLineBreak c then ' ' else c)) n h b cs
      else
        .mk ty p v n h b cs

mutual

/-- The third `applyMarkdown` transform over a tree: visit `text` nodes with
access to the previous sibling (`at(parent.children, index - 1)`; for the
first child, JS `at(-1)` yields the last sibling).  `fixTextNode` touches no
children, so applying it after the child recursion is equivalent to the
source's preorder visit. -/
def fixTextsNode (loc : Location) (map : List (Int × Int)) : Node → Node
  | .mk ty p v n h b cs => .mk ty p v n h b (fixTextsList loc map cs.getLast? cs)

def fixTextsList (loc : Location) (map : List (Int × Int)) (prev : Option Node) :
    List Node → List Node
  | [] => []
  | m :: rest =>
      fixTextNode loc map prev (fixTextsNode loc map m) :: fixTextsList loc map (some m) rest

end


/-!
## typescript-parsec combinators and the parser grammar (part_018, second
class, lines 1306-1455 and 1978-1980)

`typescript-parsec` parsers return every alternative as a candidate (result
value plus next unconsumed token); `expectEOF` keeps the candidates that
consumed the whole input and `expectSingleResult` yields the unique
survivor's value, throwing when there is none or more than one.  The token
chain is the lexer's token list; `undefined` head/next is the empty list.
-/

/-- A parsec parser: candidate list of (value, remaining tokens). -/
abbrev P (α : Type) := List Tok → List (α × List Tok)

/-- `tok(kind)`: consume one token of the given kind. -/
def tokP (k : TokenKind) : P Tok := fun ts =>
  match ts with
  | [] => []
  | t :: rest => if t.kind = k then [(t, rest)] else []

/-- `apply(p, f)`. -/
def applyP {α β : Type} (p : P α) (f : α → β) : P β := fun ts =>
  (p ts).map (fun ar => (f ar.1, ar.2))

/-- `seq(p, q)`. -/
def seqP {α β : Type} (p : P α) (q : P β) : P (α × β) := fun ts =>
  (p ts).flatMap (fun ar => (q ar.2).map (fun br => ((ar.1, br.1), br.2)))

/-- `opt(p)`: the candidates of `p` plus the empty alternative. -/
def optP {α : Type} (p : P α) : P (Option α) := fun ts =>
  (p ts).map (fun ar => (some ar.1, ar.2)) ++ [(none, ts)]

/-- `rep(p)`: zero or more repetitions, all repetition counts as candidates.
Fuel-indexed on the input length; the guard mirrors the fact that in the
grammar below every repeated parser consumes at least one token. -/
def repPGo {α : Type} (p : P α) : Nat → P (List α)
  | 0 => fun ts => [([], ts)]
  | fuel + 1 => fun ts =>
      ([], ts) :: (p ts).flatMap (fun ar =>
        if ar.2.length < ts.length then
          (repPGo p fuel ar.2).map (fun lr => (ar.1 :: lr.1, lr.2))
        else [])

/-- `rep(p)` at sufficient fuel. -/
def repP {α : Type} (p : P α) : P (List α) := fun ts => repPGo p ts.length ts

/-- `expectSingleResult(expectEOF(...))`: keep the candidates that consumed
every token; exactly one must remain, otherwise the parse throws (embedded
as `Except.error`). -/
def expectSingle {α : Type} (cands : List (α × List Tok)) : Except Unit α :=
  match cands.filter (fun ar => ar.2.isEmpty) with
  | [ar] => .ok ar.1
  | _ => .error ()

/-- `token.text.slice(1, -1).replaceAll(/[\t ]*\*[\t ]{0,2}/g, '')` — the
global (not line-anchored) delimiter strip used for `typeExpression.value`
(part_018 line 1452).  Fuel-indexed scan: at each position, remove a
tab/space run followed by `*` and up to two tabs/spaces, or keep one
character. -/
def stripStarRunsGo : Nat → List Char → List Char
  | 0, s => s
  | fuel + 1, s =>
      let ws := s.takeWhile (fun c => c = '\t' || c = ' ')
      match h : s.drop ws.length with
      | '*' :: rest =>
          stripStarRunsGo fuel
            (rest.drop (min 2 (rest.takeWhile (fun c => c = '\t' || c = ' ')).length))
      | _ =>
          match s with
          | [] => []
          | c :: cs => c :: stripStarRunsGo fuel cs

def stripStarRuns (s : List Char) : List Char := stripStarRunsGo s.length s

/-- `Parser.applyMarkdown` (part_018, second class, lines 1473-1948),
parameterized by the external Markdown engine (`fromMarkdown` plus the
built-in inline-tag extension and compile hooks — out-of-scope per spec §1;
`SpecMd.fromMarkdown` below is the spec-modelled instance): uncomment the
token text recording the column map, optionally fence it as code, run the
engine, then apply the three position/tree transforms and return the
resulting children. -/
def applyMarkdown (engine : List Char → Node) (token : Option Tok) (code : Bool) :
    List Node :=
  match token with
  | none => []
  | some tok =>
      let loc : Location := ⟨tok.text, tok.start⟩
      let map := uncommentMap tok.text tok.start
      let value := uncommentValue tok.text
      let value := if code then fenceValue value else value
      let tree := engine value
      let tree := remapNode map tok code loc tree
      let tree := insertBlankBreaks loc tree
      let tree := fixTextsNode loc map tree
      tree.children

/-- `Parser.typeExpression` (part_018 lines 1448-1455). -/
def typeExpressionP : P Node :=
  applyP (tokP .typeExpression) (fun token =>
    .mk .typeExpression ⟨token.start, token.stop⟩
      (stripStarRuns (token.text.drop 1).dropLast) [] false false [])

/-- The `codeblocks` check of `Parser.blockTag` (part_018 lines 1326-1330):
with string patterns, `tag.text === check`; regular-expression patterns are
not exercised by any claim and are not embedded. -/
def codeblockHit (codeblocks : List (List Char)) (tagText : List Char) : Bool :=
  codeblocks.any (fun cb => tagText = cb)

/-- `'`'.repeat(3)` prefix test (part_018 line 1330). -/
def startsWithFence : List Char → Bool
  | '`' :: '`' :: '`' :: _ => true
  | _ => false

/-- `Parser.blockTag` (part_018 lines 1306-1339): `tag typeExpression?
markdown?`; children are the sifted type expression followed by the
markdown-derived children (fenced as code for a `codeblocks` match whose
text is not already fenced); `name` is the tag token text and the position
runs from the tag start to the markdown, type-expression, or tag end. -/
def blockTagP (engine : List Char → Node) (codeblocks : List (List Char)) : P Node :=
  applyP (seqP (tokP .tag) (seqP (optP typeExpressionP) (optP (tokP .markdown))))
    (fun x =>
      let tag := x.1
      let te := x.2.1
      let md := x.2.2
      let code :=
        match md with
        | some m => codeblockHit codeblocks tag.text && !startsWithFence m.text
        | none => false
      let stop :=
        match md with
        | some m => m.stop
        | none => match te with | some n => n.pos.stop | none => tag.stop
      .mk .blockTag ⟨tag.start, stop⟩ [] tag.text false false
        ((match te with | some n => [n] | none => []) ++ applyMarkdown engine md code))

/-- `Parser.description` (part_018 lines 1375-1382). -/
def descriptionP (engine : List Char → Node) : P Node :=
  applyP (tokP .markdown) (fun token =>
    .mk .description ⟨token.start, token.stop⟩ [] [] false false
      (applyMarkdown engine (some token) false))

/-- `Parser.comment` (part_018 lines 1351-1363): `opener description?
blockTag* closer`. -/
def commentP (engine : List Char → Node) (codeblocks : List (List Char)) : P Node :=
  applyP
    (seqP (tokP .opener)
      (seqP (optP (descriptionP engine))
        (seqP (repP (blockTagP engine codeblocks)) (tokP .closer))))
    (fun x =>
      let opener := x.1
      let desc := x.2.1
      let blockTags := x.2.2.1
      let closer := x.2.2.2
      .mk .comment ⟨opener.start, closer.stop⟩ [] [] false false
        ((match desc with | some d => [d] | none => []) ++ blockTags))

mutual

/-- The size of a node; fuel bound for the paragraph-unwrap visitor. -/
def nodeSize : Node → Nat
  | .mk _ _ _ _ _ _ cs => 1 + nodesSize cs

/-- The size of a list of nodes. -/
def nodesSize : List Node → Nat
  | [] => 0
  | n :: ns => nodeSize n + nodesSize ns

end

/-- The `paragraphs` transform of `Parser.root` (part_018 lines 1411-1429):
visit every `paragraph` node; when its parent is a `blockTag` or `listItem`,
splice the paragraph's children in its place and revisit from the same index
(so spliced-in paragraphs unwrap too).  Fuel-indexed; `nodesSize` fuel
always suffices. -/
def unwrapList (pty : NodeTy) : Nat → List Node → List Node
  | 0, l => l
  | _ + 1, [] => []
  | fuel + 1, n :: rest =>
      if n.ty = .paragraph ∧ (pty = .blockTag ∨ pty = .listItem) then
        unwrapList pty fuel (n.children ++ rest)
      else
        (.mk n.ty n.pos n.val n.nm n.hard n.blank (unwrapList n.ty fuel n.children)) ::
          unwrapList pty fuel rest

/-- The `paragraphs` transform applied to a tree. -/
def paragraphsT (tree : Node) : Node :=
  .mk tree.ty tree.pos tree.val tree.nm tree.hard tree.blank
    (unwrapList tree.ty (nodesSize tree.children) tree.children)

/-- `Parser.root` (part_018 lines 1394-1436): `comment*` wrapped in a `root`
node, then the built-in `paragraphs` transform and the caller-supplied
transforms applied in order.  (The source's root node has no position; a
dummy position is stored.) -/
def rootP (engine : List Char → Node) (codeblocks : List (List Char))
    (transforms : List (Node → Node)) : P Node :=
  applyP (repP (commentP engine codeblocks))
    (fun children =>
      let tree : Node := .mk .root ⟨⟨1, 1, 0⟩, ⟨1, 1, 0⟩⟩ [] [] false false children
      (paragraphsT :: transforms).foldl (fun t f => f t) tree)

/-- `Parser.parse` (part_018 lines 1978-1980):
`result(eof(this.root.parse(this.lexer.head)))` over the lexer's token
chain. -/
def parseDoc (engine : List Char → Node) (codeblocks : List (List Char))
    (transforms : List (Node → Node)) (doc : List Char) : Except Unit Node :=
  expectSingle ((rootP engine codeblocks transforms) (lexTokens doc))

/-- The default options (part_018 line 1293: `defaults(options,
{ codeblocks: '@example' })`). -/
def defaultCodeblocks : List (List Char) := [['@', 'e', 'x', 'a', 'm', 'p', 'l', 'e']]


/-!
## Spec-modelled Markdown engine

The external Markdown engine (`mdast-util-from-markdown` driven by
micromark) is an out-of-scope collaborator (spec §1, §2); the spec defines
only the narrow contract the core relies on.  `specMdFromMarkdown` below is
*modelled from the spec* (§4.5 steps 2-3): fenced input parses as a single
`code` node; otherwise a single line of plain prose parses as one
`paragraph` of `text` runs and `inlineTag` constructs, where an inline tag
is entered on `{`, requires an immediate `@`, and runs to the first `}` not
preceded by a backslash.  The model covers exactly the fragment exercised by
the claims: fenced values produced by the bridge, and single-line prose
without other markdown constructs and without leading/trailing whitespace.
The construct-exit handler that fills in `name`/`value`
(`/(?<tag>@(?<name>\b\S+))\s+(?<value>\S+(?=}))/`) *is* repository code
(part_018 lines 1688-1730) and is translated in `inlineTagExec`.
-/

/-- Anchored body of the inline-tag exit regex at an `@`: `@` then a word
boundary and a greedy non-space `name`, at least one whitespace, then a
greedy non-space run backtracked to the largest prefix followed by `}`. -/
def inlineTagParseAt (t : List Char) : Option (List Char × List Char) :=
  match t with
  | '@' :: c :: rest =>
      if wordChar c then
        let name := (c :: rest).takeWhile (fun d => !jsSpace d)
        let after := (c :: rest).drop name.length
        let sp := after.takeWhile (fun d => jsSpace d)
        if sp.isEmpty then none
        else
          let after2 := after.drop sp.length
          let run := after2.takeWhile (fun d => !jsSpace d)
          match (List.range run.length).reverse.find?
              (fun k => decide (run.get? k = some '}')) with
          | some k => if 1 ≤ k then some ('@' :: name, run.take k) else none
          | none => none
      else none
  | _ => none

/-- `re.exec(slice)` for the inline-tag exit regex: the leftmost `@` at
which the anchored body matches. -/
def inlineTagExec : List Char → Option (List Char × List Char)
  | [] => none
  | c :: cs =>
      if c = '@' then
        match inlineTagParseAt ('@' :: cs) with
        | some r => some r
        | none => inlineTagExec cs
      else inlineTagExec cs

/-- Index of the first `}` not preceded by a backslash, scanning with the
previously consumed character (the micromark `inside` state of the
inline-tag construct, part_018 lines 1572-1584). -/
def findCloseBrace : Char → Nat → List Char → Option Nat
  | _, _, [] => none
  | prev, i, c :: cs =>
      if c = '}' ∧ prev ≠ '\\' then some i else findCloseBrace c (i + 1) cs

/-- A md-local point on line 1 at 0-based offset `o`. -/
def mdPt (o : Nat) : Pt := ⟨1, (o : Int) + 1, (o : Int)⟩

/-- A text node for the run `cur` ending at offset `stop` (md-local). -/
def mdTextNode (stop : Nat) (cur : List Char) : Node :=
  .mk .text ⟨mdPt (stop - cur.length), mdPt stop⟩ cur [] false false []

/-- Spec-modelled inline tokenization of one line: plain text runs plus
inline-tag constructs (`{` + immediate `@` + run to the first unescaped
`}`; a construct without a closer falls back to literal text).  `off` is
the current md-local offset, `cur` the pending text run (in reverse). -/
def scanInline : Nat → Nat → Char → List Char → List Char → List Node
  | _, off, _, cur, [] =>
      if cur.isEmpty then [] else [mdTextNode off cur.reverse]
  | 0, off, _, cur, rest =>
      [mdTextNode (off + rest.length) (cur.reverse ++ rest)]
  | fuel + 1, off, prev, cur, c :: rest =>
      if (c = '{' ∧ prev ≠ '\\') ∧ rest.head? = some '@' then
        (findCloseBrace '@' 0 rest.tail).elim
          (scanInline fuel (off + 1) c (c :: cur) rest)
          (fun i =>
            let span := i + 3
            let slice := '{' :: '@' :: rest.tail.take (i + 1)
            ((if cur.isEmpty then [] else [mdTextNode off cur.reverse]) ++
             [.mk .inlineTag ⟨mdPt off, mdPt (off + span)⟩
               ((inlineTagExec slice).elim [] (fun r => r.2))
               ((inlineTagExec slice).elim [] (fun r => r.1))
               false false []]) ++
            scanInline fuel (off + span) '}' [] (rest.tail.drop (i + 1)))
      else scanInline fuel (off + 1) c (c :: cur) rest

/-- End-of-document md-local point of a value. -/
def mdEndPt (s : List Char) : Pt :=
  ⟨1 + (lbCount s : Int), ((s.reverse.takeWhile (fun c => !isLineBreak c)).length : Int) + 1,
    (s.length : Int)⟩

/-- Spec-modelled `fromMarkdown` (see the section comment): fenced values
parse as `root [ code ]`; an empty value parses as `root []`; otherwise one
line of prose parses as `root [ paragraph [ ...inlines ] ]`. -/
def specMdFromMarkdown (value : List Char) : Node :=
  if value.take 4 = ['`', '`', '`', '\n'] ∧
      (value.reverse.take 4 = ['`', '`', '`', '\n']) then
    let inner := (value.drop 4).take (value.length - 8)
    .mk .root ⟨mdPt 0, mdEndPt value⟩ [] [] false false
      [.mk .code ⟨mdPt 0, mdEndPt value⟩ inner [] false false []]
  else if value.isEmpty then
    .mk .root ⟨mdPt 0, mdPt 0⟩ [] [] false false []
  else
    let inlines := scanInline value.length 0 ' ' [] value
    .mk .root ⟨mdPt 0, mdEndPt value⟩ [] [] false false
      [.mk .paragraph ⟨mdPt 0, mdEndPt value⟩ [] [] false false inlines]


/-- The C3 input `/** @example\n * foo()\n */`. -/
def docExample : List Char :=
  ['/', '*', '*', ' ', '@', 'e', 'x', 'a', 'm', 'p', 'l', 'e', '\n',
   ' ', '*', ' ', 'f', 'o', 'o', '(', ')', '\n', ' ', '*', '/']


mutual

theorem Node.beq_iff : (a b : Node) → (Node.beq a b = true ↔ a = b)
  | .mk t1 p1 v1 n1 h1 b1 c1, .mk t2 p2 v2 n2 h2 b2 c2 => by
      rw [Node.beq, Node.mk.injEq]
      simp only [Bool.and_eq_true, beq_iff_eq]
      rw [Node.beqList_iff c1 c2]
      tauto

theorem Node.beqList_iff : (as bs : List Node) → (Node.beqList as bs = true ↔ as = bs)
  | [], [] => by simp [Node.beqList]
  | [], _ :: _ => by simp [Node.beqList]
  | _ :: _, [] => by simp [Node.beqList]
  | a :: as, b :: bs => by
      rw [Node.beqList]
      simp only [Bool.and_eq_true, List.cons.injEq]
      rw [Node.beq_iff a b, Node.beqList_iff as bs]

end

instance : DecidableEq Node := fun a b => decidable_of_iff _ (Node.beq_iff a b)

deriving instance DecidableEq for Except

/-- The token list of the C3 input, as literals (used to cut evaluation of
the parse pipeline into kernel-sized steps). -/
theorem lexTokens_docExample : lexTokens docExample =
    [⟨.opener, ⟨1, 1, 0⟩, ⟨1, 4, 3⟩, ['/', '*', '*']⟩,
     ⟨.tag, ⟨1, 5, 4⟩, ⟨1, 13, 12⟩, ['@', 'e', 'x', 'a', 'm', 'p', 'l', 'e']⟩,
     ⟨.markdown, ⟨2, 4, 16⟩, ⟨2, 9, 21⟩, ['f', 'o', 'o', '(', ')']⟩,
     ⟨.closer, ⟨3, 2, 23⟩, ⟨3, 4, 25⟩, ['*', '/']⟩] := by
  decide

/-- C3. **Codeblock tagging** (spec §8 "Codeblock tagging"; part_018
`blockTag` codeblock check lines 1319-1331, `applyMarkdown` fencing line
1516 and code end pinning lines 1793-1796): with default options, parsing
`/** @example\n * foo()\n */` yields an `@example` block tag whose
markdown-derived content is exactly one `code` node with value `foo()` (not
a `paragraph`), and that code node's end position `(2, 9, 21)` equals the
end position of the lexer's markdown token in source coordinates. -/
theorem c3_example_codeblock_single_code_node :
    parseDoc specMdFromMarkdown defaultCodeblocks [] docExample =
      .ok (.mk .root ⟨⟨1, 1, 0⟩, ⟨1, 1, 0⟩⟩ [] [] false false
        [.mk .comment ⟨⟨1, 1, 0⟩, ⟨3, 4, 25⟩⟩ [] [] false false
          [.mk .blockTag ⟨⟨1, 5, 4⟩, ⟨2, 9, 21⟩⟩ []
              ['@', 'e', 'x', 'a', 'm', 'p', 'l', 'e'] false false
            [.mk .code ⟨⟨2, 4, 16⟩, ⟨2, 9, 21⟩⟩ ['f', 'o', 'o', '(', ')'] []
              false false []]]]) ∧
    (lexTokens docExample).find? (fun t => t.kind == TokenKind.markdown) =
      some ⟨.markdown, ⟨2, 4, 16⟩, ⟨2, 9, 21⟩, ['f', 'o', 'o', '(', ')']⟩ := by
  constructor
  · show expectSingle
        ((rootP specMdFromMarkdown defaultCodeblocks []) (lexTokens docExample)) = _
    rw [lexTokens_docExample]
    decide
  · rw [lexTokens_docExample]
    decide

/-!
## Candidate-structure lemmas for the parsec combinators, and claim C5
-/

theorem mem_applyP {α β : Type} {p : P α} {f : α → β} {ts : List Tok}
    {b : β} {r : List Tok} :
    (b, r) ∈ applyP p f ts ↔ ∃ a, (a, r) ∈ p ts ∧ b = f a := by
  unfold applyP
  rw [List.mem_map]
  constructor
  · rintro ⟨⟨a, r'⟩, hm, he⟩
    cases he
    exact ⟨a, hm, rfl⟩
  · rintro ⟨a, hm, rfl⟩
    exact ⟨(a, r), hm, rfl⟩

theorem mem_seqP {α β : Type} {p : P α} {q : P β} {ts : List Tok}
    {ab : α × β} {r : List Tok} :
    (ab, r) ∈ seqP p q ts ↔ ∃ mid, (ab.1, mid) ∈ p ts ∧ (ab.2, r) ∈ q mid := by
  unfold seqP
  rw [List.mem_flatMap]
  constructor
  · rintro ⟨⟨a, mid⟩, hm, hmem⟩
    rw [List.mem_map] at hmem
    rcases hmem with ⟨⟨b, r'⟩, hb, he⟩
    cases he
    exact ⟨mid, hm, hb⟩
  · rintro ⟨mid, hp, hq⟩
    refine ⟨(ab.1, mid), hp, ?_⟩
    rw [List.mem_map]
    exact ⟨(ab.2, r), hq, rfl⟩

theorem mem_tokP {k : TokenKind} {ts : List Tok} {t : Tok} {r : List Tok} :
    (t, r) ∈ tokP k ts ↔ ts = t :: r ∧ t.kind = k := by
  unfold tokP
  cases ts with
  | nil => simp
  | cons u rest =>
      by_cases h : u.kind = k
      · simp only [if_pos h, List.mem_singleton, Prod.mk.injEq, List.cons.injEq]
        constructor
        · rintro ⟨rfl, rfl⟩
          exact ⟨⟨rfl, rfl⟩, h⟩
        · rintro ⟨⟨rfl, rfl⟩, _⟩
          exact ⟨rfl, rfl⟩
      · simp only [if_neg h, List.not_mem_nil, false_iff, not_and, List.cons.injEq]
        rintro ⟨rfl, rfl⟩
        exact h

theorem mem_optP {α : Type} {p : P α} {ts : List Tok} {o : Option α} {r : List Tok} :
    (o, r) ∈ optP p ts ↔ (∃ a, o = some a ∧ (a, r) ∈ p ts) ∨ (o = none ∧ r = ts) := by
  unfold optP
  rw [List.mem_append, List.mem_map]
  constructor
  · rintro (⟨⟨a, r'⟩, hm, he⟩ | h)
    · cases he
      exact .inl ⟨a, rfl, hm⟩
    · rcases List.mem_singleton.mp h with he
      cases he
      exact .inr ⟨rfl, rfl⟩
  · rintro (⟨a, rfl, hm⟩ | ⟨rfl, rfl⟩)
    · exact .inl ⟨(a, r), hm, rfl⟩
    · exact .inr (List.mem_singleton.mpr rfl)

/-- Every parsec candidate's remainder is a suffix of its input. -/
def SuffixCand {α : Type} (p : P α) : Prop :=
  ∀ ts a r, (a, r) ∈ p ts → ∃ pre, ts = pre ++ r

theorem suffixCand_tokP (k : TokenKind) : SuffixCand (tokP k) := by
  intro ts a r hm
  rcases mem_tokP.mp hm with ⟨rfl, _⟩
  exact ⟨[a], rfl⟩

theorem suffixCand_applyP {α β : Type} {p : P α} (f : α → β) (hp : SuffixCand p) :
    SuffixCand (applyP p f) := by
  intro ts b r hm
  rcases mem_applyP.mp hm with ⟨a, hm2, rfl⟩
  exact hp ts a r hm2

theorem suffixCand_seqP {α β : Type} {p : P α} {q : P β}
    (hp : SuffixCand p) (hq : SuffixCand q) : SuffixCand (seqP p q) := by
  intro ts ab r hm
  rcases mem_seqP.mp hm with ⟨mid, h1, h2⟩
  rcases hp ts ab.1 mid h1 with ⟨pre1, rfl⟩
  rcases hq mid ab.2 r h2 with ⟨pre2, rfl⟩
  exact ⟨pre1 ++ pre2, by rw [List.append_assoc]⟩

theorem suffixCand_optP {α : Type} {p : P α} (hp : SuffixCand p) :
    SuffixCand (optP p) := by
  intro ts o r hm
  rcases mem_optP.mp hm with ⟨a, rfl, hm2⟩ | ⟨rfl, rfl⟩
  · exact hp ts a r hm2
  · exact ⟨[], rfl⟩

theorem suffixCand_repPGo {α : Type} {p : P α} (hp : SuffixCand p) (fuel : Nat) :
    SuffixCand (repPGo p fuel) := by
  induction fuel with
  | zero =>
      intro ts l r hm
      rw [repPGo] at hm
      rcases List.mem_singleton.mp hm with he
      cases he
      exact ⟨[], rfl⟩
  | succ fuel ih =>
      intro ts l r hm
      rw [repPGo] at hm
      rcases List.mem_cons.mp hm with he | hm
      · cases he
        exact ⟨[], rfl⟩
      · rw [List.mem_flatMap] at hm
        rcases hm with ⟨⟨a, mid⟩, hm1, hm2⟩
        by_cases hlt : mid.length < ts.length
        · rw [if_pos hlt, List.mem_map] at hm2
          rcases hm2 with ⟨⟨l2, r2⟩, hm3, he⟩
          cases he
          rcases hp ts a mid hm1 with ⟨pre1, rfl⟩
          rcases ih mid l2 r2 hm3 with ⟨pre2, rfl⟩
          exact ⟨pre1 ++ pre2, by rw [List.append_assoc]⟩
        · rw [if_neg hlt] at hm2
          simp at hm2

theorem suffixCand_repP {α : Type} {p : P α} (hp : SuffixCand p) : SuffixCand (repP p) :=
  fun ts => suffixCand_repPGo hp ts.length ts


/-- `ts` reduces to `rest` by removing zero or more chunks each of which
ends with a `closer` token — the shape of everything `rep(comment)` can
consume, since the `comment` production ends with `tok(closer)`. -/
inductive CChunks : List Tok → List Tok → Prop where
  | refl (ts : List Tok) : CChunks ts ts
  | step (pre : List Tok) (u : Tok) (mid rest : List Tok) :
      u.kind = .closer → CChunks mid rest → CChunks (pre ++ u :: mid) rest

/-- Every `comment` candidate consumes a chunk whose last token is a
`closer`. -/
theorem commentP_consumes (engine : List Char → Node) (cbs : List (List Char))
    (ts : List Tok) (c : Node) (r : List Tok)
    (hm : (c, r) ∈ commentP engine cbs ts) :
    ∃ pre u, ts = pre ++ u :: r ∧ u.kind = TokenKind.closer := by
  unfold commentP at hm
  rcases mem_applyP.mp hm with ⟨x, hm2, _⟩
  rcases mem_seqP.mp hm2 with ⟨m1, hop, hm3⟩
  rcases mem_seqP.mp hm3 with ⟨m2, hdesc, hm4⟩
  rcases mem_seqP.mp hm4 with ⟨m3, hrep, hclose⟩
  rcases mem_tokP.mp hop with ⟨rfl, _⟩
  rcases suffixCand_optP (suffixCand_applyP _ (suffixCand_tokP _)) m1 _ _ hdesc with ⟨p2, rfl⟩
  rcases suffixCand_repP (suffixCand_applyP _ (suffixCand_seqP (suffixCand_tokP _)
    (suffixCand_seqP (suffixCand_optP (suffixCand_applyP _ (suffixCand_tokP _)))
      (suffixCand_optP (suffixCand_tokP _))))) m2 _ _ hrep with ⟨p3, rfl⟩
  rcases mem_tokP.mp hclose with ⟨rfl, hk⟩
  exact ⟨x.1 :: (p2 ++ p3), x.2.2.2, by simp, hk⟩

/-- Every `rep(comment)` candidate consumes a sequence of closer-terminated
chunks. -/
theorem repP_commentP_chunks (engine : List Char → Node) (cbs : List (List Char))
    (fuel : Nat) (ts : List Tok) (l : List Node) (r : List Tok)
    (hm : (l, r) ∈ repPGo (commentP engine cbs) fuel ts) : CChunks ts r := by
  induction fuel generalizing ts l with
  | zero =>
      rw [repPGo] at hm
      rcases List.mem_singleton.mp hm with he
      cases he
      exact .refl r
  | succ fuel ih =>
      rw [repPGo] at hm
      rcases List.mem_cons.mp hm with he | hm
      · cases he
        exact .refl r
      · rw [List.mem_flatMap] at hm
        rcases hm with ⟨⟨a, mid⟩, hm1, hm2⟩
        by_cases hlt : mid.length < ts.length
        · rw [if_pos hlt, List.mem_map] at hm2
          rcases hm2 with ⟨⟨l2, r2⟩, hm3, he⟩
          cases he
          rcases commentP_consumes engine cbs ts a mid hm1 with ⟨pre, u, rfl, hu⟩
          exact .step pre u mid r2 hu (ih mid l2 hm3)
        · rw [if_neg hlt] at hm2
          simp at hm2

/-- In a closer-chunked reduction, a non-`closer` token of the input is
either followed by a `closer`, or survives (with its tail) into the
remainder. -/
theorem cchunks_closer_after_or (ts rest : List Tok) (h : CChunks ts rest)
    (a : List Tok) (t : Tok) (b : List Tok) (hts : ts = a ++ t :: b)
    (hne : t.kind ≠ TokenKind.closer) :
    (∃ u ∈ b, u.kind = TokenKind.closer) ∨ ∃ a2, rest = a2 ++ t :: b := by
  induction h generalizing a t b with
  | refl ts' =>
      exact .inr ⟨a, hts⟩
  | step pre u mid rest2 hu hmid ih =>
      rcases List.append_eq_append_iff.mp hts with ⟨a2, _, hb⟩ | ⟨c2, _, hd⟩
      · cases a2 with
        | nil =>
            simp only [List.nil_append, List.cons.injEq] at hb
            exact absurd (hb.1 ▸ hu) hne
        | cons v a3 =>
            simp only [List.cons_append, List.cons.injEq] at hb
            exact ih a3 t b hb.2 hne
      · cases c2 with
        | nil =>
            simp only [List.nil_append, List.cons.injEq] at hd
            exact absurd (hd.1 ▸ hu) hne
        | cons w c3 =>
            simp only [List.cons_append, List.cons.injEq] at hd
            exact .inl ⟨u, by rw [hd.2]; simp, hu⟩

/-- In a fully consumed closer-chunked token list, every token that is not a
`closer` is followed by one. -/
theorem cchunks_closer_after (ts : List Tok) (h : CChunks ts [])
    (a : List Tok) (t : Tok) (b : List Tok) (hts : ts = a ++ t :: b)
    (hne : t.kind ≠ TokenKind.closer) : ∃ u ∈ b, u.kind = TokenKind.closer := by
  rcases cchunks_closer_after_or ts [] h a t b hts hne with h2 | ⟨a2, h2⟩
  · exact h2
  · simp at h2

/-- An unterminated comment at the token level: the lexer emitted an
`opener` token that is not followed by any `closer` token. -/
def Unterminated (ts : List Tok) : Prop :=
  ∃ a t b, ts = a ++ t :: b ∧ t.kind = TokenKind.opener ∧
    ∀ u ∈ b, u.kind ≠ TokenKind.closer

theorem expectSingle_error {α : Type} (cands : List (α × List Tok))
    (h : ∀ ar ∈ cands, ar.2 ≠ []) : expectSingle cands = .error () := by
  unfold expectSingle
  have hf : cands.filter (fun ar => ar.2.isEmpty) = [] := by
    rw [List.filter_eq_nil_iff]
    intro ar hm
    simpa using h ar hm
  rw [hf]

/-- C5. **Unterminated comments fail the whole parse** (spec §7
"Structural/grammar failure", §4.4 "Failure"; src/src/lexer.ts `tokenize`,
part_018 `Parser.parse` lines 1978-1980): whenever the lexer's token
sequence for an input contains a docblock opener with no closer after it (an
unterminated comment), `parse` propagates an error and returns no tree: the
`comment` production can only consume an `opener` in a chunk that ends with
a `closer`, so no parse candidate consumes the whole token chain and
`expectSingleResult(expectEOF(...))` throws. -/
theorem c5_unterminated_comment_parse_error
    (engine : List Char → Node) (cbs : List (List Char))
    (trs : List (Node → Node)) (doc : List Char)
    (h : Unterminated (lexTokens doc)) :
    parseDoc engine cbs trs doc = .error () := by
  rcases h with ⟨a, t, b, hts, hop, hnocl⟩
  apply expectSingle_error
  rintro ⟨v, r⟩ hm hr
  subst hr
  unfold rootP at hm
  rcases mem_applyP.mp hm with ⟨l, hm2, _⟩
  have hchunks : CChunks (lexTokens doc) [] :=
    repP_commentP_chunks engine cbs (lexTokens doc).length (lexTokens doc) l [] hm2
  rcases cchunks_closer_after (lexTokens doc) hchunks a t b hts
      (by rw [hop]; intro hco; cases hco) with ⟨u, hub, huk⟩
  exact hnocl u hub huk

/-- Witness for `c5_unterminated_comment_parse_error` at the input `/**`:
its token sequence is a single opener, and the parse errors. -/
theorem c5_unterminated_comment_parse_error_witness :
    Unterminated (lexTokens ['/', '*', '*']) ∧
    parseDoc specMdFromMarkdown defaultCodeblocks [] ['/', '*', '*'] = .error () := by
  have hu : Unterminated (lexTokens ['/', '*', '*']) := by
    refine ⟨[], ⟨.opener, ⟨1, 1, 0⟩, ⟨1, 4, 3⟩, ['/', '*', '*']⟩, [], ?_, rfl, ?_⟩
    · decide
    · intro u hu
      simp at hu
  exact ⟨hu, c5_unterminated_comment_parse_error specMdFromMarkdown defaultCodeblocks [] _ hu⟩

/-!
## Claim C7: paragraph unwrapping and transform ordering
-/

mutual

/-- No `paragraph` node is a direct child of a `blockTag` or `listItem`
container, anywhere in the tree. -/
def NoPB : Node → Prop
  | .mk ty _ _ _ _ _ cs =>
      ((ty = .blockTag ∨ ty = .listItem) → ∀ c ∈ cs, c.ty ≠ NodeTy.paragraph) ∧ NoPBList cs

/-- `NoPB` for every node of a list. -/
def NoPBList : List Node → Prop
  | [] => True
  | n :: ns => NoPB n ∧ NoPBList ns

end

theorem nodesSize_append (a b : List Node) :
    nodesSize (a ++ b) = nodesSize a + nodesSize b := by
  induction a with
  | nil => simp [nodesSize]
  | cons n ns ih => rw [List.cons_append, nodesSize, nodesSize, ih]; ring

theorem nodeSize_pos (n : Node) : 1 ≤ nodeSize n := by
  cases n
  rw [nodeSize]
  omega

/-- The paragraph-unwrap visitor leaves no `paragraph` directly under a
`blockTag` or `listItem`: the spliced-in children are reprocessed at the
same position, and every kept node's children are processed under its own
type. -/
theorem unwrapList_noPB (fuel : Nat) (pty : NodeTy) (l : List Node)
    (hf : nodesSize l ≤ fuel) :
    ((pty = .blockTag ∨ pty = .listItem) →
      ∀ c ∈ unwrapList pty fuel l, c.ty ≠ NodeTy.paragraph) ∧
    NoPBList (unwrapList pty fuel l) := by
  induction fuel generalizing pty l with
  | zero =>
      cases l with
      | nil => exact ⟨by intro _ c hc; simp [unwrapList] at hc, by rw [unwrapList]; trivial⟩
      | cons n rest =>
          exfalso
          have := nodeSize_pos n
          rw [nodesSize] at hf
          omega
  | succ fuel ih =>
      cases l with
      | nil => exact ⟨by intro _ c hc; simp [unwrapList] at hc, by rw [unwrapList]; trivial⟩
      | cons n rest =>
          rw [unwrapList]
          by_cases hcond : n.ty = NodeTy.paragraph ∧ (pty = .blockTag ∨ pty = .listItem)
          · rw [if_pos hcond]
            apply ih
            cases n with
            | mk ty p v nm h b cs =>
                rw [nodesSize, nodeSize] at hf
                rw [nodesSize_append]
                simp only [Node.children]
                omega
          · rw [if_neg hcond]
            have hcs : nodesSize n.children ≤ fuel := by
              cases n with
              | mk ty p v nm h b cs =>
                  rw [nodesSize, nodeSize] at hf
                  simp only [Node.children]
                  omega
            have hrest : nodesSize rest ≤ fuel := by
              have := nodeSize_pos n
              rw [nodesSize] at hf
              omega
            have ihn := ih n.ty n.children hcs
            have ihr := ih pty rest hrest
            constructor
            · rintro hpt c hc
              rcases List.mem_cons.mp hc with rfl | hc
              · show n.ty ≠ NodeTy.paragraph
                intro hpara
                exact hcond ⟨hpara, hpt⟩
              · exact ihr.1 hpt c hc
            · rw [NoPBList]
              refine ⟨?_, ihr.2⟩
              rw [NoPB]
              exact ⟨fun hpt => ihn.1 hpt, ihn.2⟩

/-- The built-in `paragraphs` transform establishes `NoPB`. -/
theorem paragraphsT_noPB (t : Node) : NoPB (paragraphsT t) := by
  cases t with
  | mk ty p v nm h b cs =>
      have := unwrapList_noPB (nodesSize cs) ty cs le_rfl
      rw [paragraphsT]
      simp only [Node.ty, Node.pos, Node.val, Node.nm, Node.hard, Node.blank, Node.children]
      rw [NoPB]
      exact ⟨this.1, this.2⟩

theorem expectSingle_ok_mem {α : Type} {cands : List (α × List Tok)} {a : α}
    (h : expectSingle cands = .ok a) : ∃ r, (a, r) ∈ cands := by
  unfold expectSingle at h
  rcases hf : cands.filter (fun ar => ar.2.isEmpty) with _ | ⟨ar, rest⟩
  · rw [hf] at h
    cases h
  · rcases rest with _ | _
    · rw [hf] at h
      cases h
      have : ar ∈ cands.filter (fun ar => ar.2.isEmpty) := by rw [hf]; simp
      exact ⟨ar.2, List.mem_of_mem_filter this⟩
    · rw [hf] at h
      cases h

/-- Composing the candidate values of `rootP` with the caller transforms. -/
theorem rootP_transforms (engine : List Char → Node) (cbs : List (List Char))
    (trs : List (Node → Node)) (ts : List Tok) :
    rootP engine cbs trs ts =
      (rootP engine cbs [] ts).map
        (fun ar => (trs.foldl (fun t f => f t) ar.1, ar.2)) := by
  unfold rootP applyP
  rw [List.map_map]
  congr 1

theorem expectSingle_map {α β : Type} (cands : List (α × List Tok)) (g : α → β) :
    expectSingle (cands.map (fun ar => (g ar.1, ar.2))) = (expectSingle cands).map g := by
  unfold expectSingle
  rw [List.filter_map]
  have hcomp :
      ((fun ar : β × List Tok => ar.2.isEmpty) ∘ fun ar : α × List Tok => (g ar.1, ar.2)) =
        fun ar : α × List Tok => ar.2.isEmpty := rfl
  rw [hcomp]
  rcases hf : cands.filter (fun ar => ar.2.isEmpty) with _ | ⟨ar, _ | ⟨br, rest⟩⟩ <;>
    rw [hf] <;> rfl

/-- C7. **Paragraph unwrap runs first; caller transforms run in order**
(spec §4.4 post-processing, §8 "Paragraph unwrap"; part_018 `root`
lines 1394-1436): the tree `parse` returns with caller transforms `trs` is
the tree of the transform-free parse with `trs` folded over it left to
right — i.e. the built-in paragraph unwrap runs before all caller
transforms, which run sequentially in the order supplied; and the
transform-free parse leaves no `paragraph` node as a direct child of a
`blockTag` or `listItem` anywhere in the tree. -/
theorem c7_paragraph_unwrap_before_ordered_transforms :
    (∀ (engine : List Char → Node) (cbs : List (List Char))
        (trs : List (Node → Node)) (doc : List Char),
      parseDoc engine cbs trs doc =
        (parseDoc engine cbs [] doc).map (fun t => trs.foldl (fun t f => f t) t)) ∧
    (∀ (engine : List Char → Node) (cbs : List (List Char)) (doc : List Char) (r : Node),
      parseDoc engine cbs [] doc = .ok r → NoPB r) := by
  constructor
  · intro engine cbs trs doc
    show expectSingle _ =
      Except.map _ (expectSingle ((rootP engine cbs []) (lexTokens doc)))
    rw [rootP_transforms]
    exact expectSingle_map ((rootP engine cbs []) (lexTokens doc))
      (fun t => trs.foldl (fun t f => f t) t)
  · intro engine cbs doc r h
    have hm := expectSingle_ok_mem h
    rcases hm with ⟨rest, hm⟩
    rcases mem_applyP.mp hm with ⟨children, _, rfl⟩
    exact paragraphsT_noPB _

/-- Witness for `c7_paragraph_unwrap_before_ordered_transforms` on the C3
input with one caller transform. -/
theorem c7_paragraph_unwrap_before_ordered_transforms_witness :
    (parseDoc specMdFromMarkdown defaultCodeblocks [fun t => t] docExample =
      (parseDoc specMdFromMarkdown defaultCodeblocks [] docExample).map
        (fun t => [fun t => t].foldl (fun (t : Node) (f : Node → Node) => f t) t)) ∧
    ∃ r, parseDoc specMdFromMarkdown defaultCodeblocks [] docExample = .ok r ∧ NoPB r := by
  constructor
  · exact c7_paragraph_unwrap_before_ordered_transforms.1 specMdFromMarkdown
      defaultCodeblocks [fun t => t] docExample
  · have hok : parseDoc specMdFromMarkdown defaultCodeblocks [] docExample =
        .ok (.mk .root ⟨⟨1, 1, 0⟩, ⟨1, 1, 0⟩⟩ [] [] false false
          [.mk .comment ⟨⟨1, 1, 0⟩, ⟨3, 4, 25⟩⟩ [] [] false false
            [.mk .blockTag ⟨⟨1, 5, 4⟩, ⟨2, 9, 21⟩⟩ []
                ['@', 'e', 'x', 'a', 'm', 'p', 'l', 'e'] false false
              [.mk .code ⟨⟨2, 4, 16⟩, ⟨2, 9, 21⟩⟩ ['f', 'o', 'o', '(', ')'] []
                false false []]]]) := by
      show expectSingle
          ((rootP specMdFromMarkdown defaultCodeblocks []) (lexTokens docExample)) = _
      rw [lexTokens_docExample]
      decide
    exact ⟨_, hok,
      c7_paragraph_unwrap_before_ordered_transforms.2 specMdFromMarkdown
        defaultCodeblocks docExample _ hok⟩

/-!
## Claim C6: break node end columns after the position remap
-/

mutual

/-- Every `break` node's end column is `1`, plus its remapped start column
when the break is hard. -/
def BreakCols : Node → Prop
  | .mk ty p _ _ h _ cs =>
      (ty = NodeTy.brk → p.stop.column = 1 + (if h then p.start.column else 0)) ∧
      BreakColsList cs

/-- `BreakCols` for every node of a list. -/
def BreakColsList : List Node → Prop
  | [] => True
  | n :: ns => BreakCols n ∧ BreakColsList ns

end

theorem remapPos_brk_stop_column (map : List (Int × Int)) (tok : Tok) (code : Bool)
    (loc : Location) (hard : Bool) (p : Pos) :
    (remapPos map tok code loc NodeTy.brk hard p).stop.column =
      1 + (if hard then (remapPos map tok code loc NodeTy.brk hard p).start.column else 0) := by
  rw [remapPos]
  have hnc : ¬(code = true ∧ NodeTy.brk = NodeTy.code) := by rintro ⟨-, h⟩; cases h
  simp only [decide_eq_true_eq, if_neg hnc]
  by_cases hh : hard <;> simp [hh]

mutual

/-- C6 amendment at tree level: after the remap visitor, every `break`
node's end column is `1 + start.column` when hard, else `1`. -/
theorem remapNode_breakCols (map : List (Int × Int)) (tok : Tok) (code : Bool)
    (loc : Location) (n : Node) : BreakCols (remapNode map tok code loc n) :=
  match n with
  | .mk ty p v nm h b cs => by
      rw [remapNode, BreakCols]
      refine ⟨?_, remapNodes_breakCols map tok code loc cs⟩
      rintro rfl
      exact remapPos_brk_stop_column map tok code loc h p

theorem remapNodes_breakCols (map : List (Int × Int)) (tok : Tok) (code : Bool)
    (loc : Location) (ns : List Node) : BreakColsList (remapNodes map tok code loc ns) :=
  match ns with
  | [] => by rw [remapNodes, BreakColsList]; trivial
  | n :: rest => by
      rw [remapNodes, BreakColsList]
      exact ⟨remapNode_breakCols map tok code loc n,
        remapNodes_breakCols map tok code loc rest⟩

end

/-- Counterexample to C6 as stated: a hard break whose remapped start column
is `5` gets end column `6` after the remap, not `2` (the spec's "1, plus one
more if hard"). -/
theorem c6_break_end_column_counterexample :
    (remapNode [] ⟨.markdown, ⟨1, 1, 0⟩, ⟨1, 1, 0⟩, []⟩ false (Location.ofDoc [])
        (.mk .brk ⟨⟨1, 5, 4⟩, ⟨1, 5, 4⟩⟩ [] [] true false [])).ty = NodeTy.brk ∧
    (remapNode [] ⟨.markdown, ⟨1, 1, 0⟩, ⟨1, 1, 0⟩, []⟩ false (Location.ofDoc [])
        (.mk .brk ⟨⟨1, 5, 4⟩, ⟨1, 5, 4⟩⟩ [] [] true false [])).hard = true ∧
    ¬((remapNode [] ⟨.markdown, ⟨1, 1, 0⟩, ⟨1, 1, 0⟩, []⟩ false (Location.ofDoc [])
        (.mk .brk ⟨⟨1, 5, 4⟩, ⟨1, 5, 4⟩⟩ [] [] true false [])).pos.stop.column = 2) := by
  decide

/-- C6 (amended). **Break end column = 1, plus the break's own (remapped)
start column when hard** (part_018 lines 1798-1804: `end.column = 1` then
`end.column += start.column` for hard breaks — not "plus one more"): after
the remap visitor runs over any tree, every `break` node's end column is
`1 + start.column` if the break is hard, else `1`. -/
theorem c6_break_end_column_amended (map : List (Int × Int)) (tok : Tok) (code : Bool)
    (loc : Location) (n : Node) : BreakCols (remapNode map tok code loc n) :=
  remapNode_breakCols map tok code loc n

/-!
## Claim C10: the matchAll-based Lexer (src/src/lexer.ts, first class)
-/

/-- The `*/` scan inside a comment search match: index of the first position
of `rest` where `*/` begins. -/
def closerScan : Nat → List Char → Option Nat
  | k, '*' :: '/' :: _ => some k
  | k, _ :: t => closerScan (k + 1) t
  | _, [] => none

/-- One attempt of the comment-search regex `/\/\*{2,2}.*?\*\//gs`
(`Lexer.tokenize`, first class, lines 320-323; `multiline` off) anchored at
index `i`: `/**`, then the lazy `.*?` runs to the first following `*/`.
The result is the match length. -/
def matchCommentAt (doc : List Char) (i : Nat) : Option Nat :=
  match doc.drop i with
  | '/' :: '*' :: '*' :: rest => (closerScan 0 rest).map (fun k => k + 5)
  | _ => none

/-- `String.prototype.matchAll` with the comment-search regex: leftmost
matches in order, resuming after each match (`lastIndex = index + length`).
Fuel-indexed; each step advances the scan index, so `doc.length + 1` fuel
finishes the scan. -/
def searchAll (doc : List Char) : Nat → Nat → List (Nat × Nat)
  | 0, _ => []
  | fuel + 1, i =>
      if doc.length ≤ i then []
      else
        match matchCommentAt doc i with
        | some L => (i, L) :: searchAll doc fuel (i + L)
        | none => searchAll doc fuel (i + 1)

/-- All comment-search matches of the document, as (index, length) pairs. -/
def searchComments (doc : List Char) : List (Nat × Nat) :=
  searchAll doc (doc.length + 1) 0

/-- The rule loop of `Lexer.tokenize`, first class (lines 345-365): rules
are tried in order against the outer reader's slice and the first rule that
matches — inside a comment, or the opener rule — fires, then `break`
leaves the loop. -/
def findRule (doc : List Char) (idx : Nat) (comment : Bool) :
    List (Bool × TokenKind) → Option (Bool × TokenKind × List Char)
  | [] => none
  | (keep, kind) :: rest =>
      match ruleMatch kind (doc.drop idx) with
      | some chars =>
          if kind = .opener ∨ comment then some (keep, kind, chars)
          else findRule doc idx comment rest
      | none => findRule doc idx comment rest

/-- The `while (!reader.eof)` loop over one comment match (first class,
lines 341-369).  `reader` is a fresh inner reader over the match text of
length `L`, advanced only when no rule fired (`!consumed && reader.read()`);
the rules read from the outer reader (`this.reader`), whose position is
`st.idx`.  Fuel-indexed: every iteration either advances the outer reader
(bounded by `doc.length`) or the inner position (bounded by `L`), so
`doc.length + L + 1` fuel always finishes. -/
def subLoop (doc : List Char) (L : Nat) : Nat → Nat → LexState → LexState
  | 0, _, st => st
  | fuel + 1, innerPos, st =>
      if L ≤ innerPos then st
      else
        match findRule doc st.idx st.comment lexRules with
        | some (keep, kind, chars) =>
            subLoop doc L fuel innerPos (emitTok doc st kind chars keep)
        | none => subLoop doc L fuel (innerPos + 1) st

/-- The `for (const match of ...)` loop of `Lexer.tokenize`, first class
(lines 326-370).  Per match, `this.reader.read((match.index -
this.reader.index) + match.length - 1)` moves the outer reader to absolute
position `match.index`: `match` is the match *array* and the search regex
has no capture groups, so `match.length` is `1` and the read amount is
`match.index - index`.  The outer reader is modelled from the spec: the
`@flex-development/vfile-reader` `Reader` has the same cursor interface as
the in-repo reader (src/unnamed/part_009) — `read(k)` adds `k` to the
position unclamped and `point`/`now` map positions through the location
index. -/
def lexALoop (doc : List Char) : List (Nat × Nat) → LexState → LexState
  | [], st => st
  | (mIdx, mLen) :: rest, st =>
      let st1 : LexState := { st with idx := mIdx }
      lexALoop doc rest (subLoop doc mLen (doc.length + mLen + 1) 0 st1)

/-- `Lexer.tokenize`, first class (lines 317-379): process every comment
search match, then `enter(eof, '')` / `exit(eof)` append the zero-width eof
token at the final reader position. -/
def lexATokens (doc : List Char) : List Tok :=
  (emitTok doc (lexALoop doc (searchComments doc) ⟨0, false, []⟩) .eof [] true).toks

theorem Location.point_offset (L : Location) (o : Int) : (L.point o).offset = o := by
  unfold Location.point
  cases hf : L.pts.find? (fun q => decide (q.offset = o)) with
  | none => rfl
  | some q =>
      have := List.find?_some hf
      simpa using this

/-- The claim's cross-token ordering: every token's start offset is at least
the start offset of the token preceding it in the next-linked chain. -/
def startsMonotone : List Tok → Bool
  | a :: b :: rest => decide (a.start.offset ≤ b.start.offset) && startsMonotone (b :: rest)
  | _ => true

/-- Counterexample to C10 as stated: on `/**a*//**b*/` the lexer's token
chain is opener(0-3), markdown `a*//**b` (3-10), closer(10-12),
opener(6-9), eof(9-9) — the markdown rule overruns the second comment
search match, the per-match jump `read((match.index - index) + match.length
- 1)` (read amount `match.index - index`, as the match array has length 1)
then moves the reader back to offset 6, and the re-lexed opener token
starts before the closer that precedes it in the chain. -/
theorem c10_token_order_counterexample :
    startsMonotone
        (lexATokens ['/', '*', '*', 'a', '*', '/', '/', '*', '*', 'b', '*', '/']) =
      false := by
  decide

theorem emitTok_startLe (doc : List Char) (st : LexState) (kind : TokenKind)
    (chars : List Char) (keep : Bool)
    (h : ∀ t ∈ st.toks, t.start.offset ≤ t.stop.offset) :
    ∀ t ∈ (emitTok doc st kind chars keep).toks, t.start.offset ≤ t.stop.offset := by
  unfold emitTok
  cases keep with
  | false => simpa using h
  | true =>
      simp only [if_pos rfl]
      intro t ht
      rcases List.mem_append.mp ht with ht | ht
      · exact h t ht
      · rcases List.mem_singleton.mp ht with rfl
        show (lexNow doc st.idx).offset ≤ (lexNow doc (st.idx + chars.length)).offset
        unfold lexNow
        rw [Location.point_offset, Location.point_offset]
        exact_mod_cast Nat.le_add_right st.idx chars.length

theorem subLoop_startLe (doc : List Char) (L fuel innerPos : Nat) (st : LexState)
    (h : ∀ t ∈ st.toks, t.start.offset ≤ t.stop.offset) :
    ∀ t ∈ (subLoop doc L fuel innerPos st).toks, t.start.offset ≤ t.stop.offset := by
  induction fuel generalizing innerPos st with
  | zero => exact h
  | succ fuel ih =>
      rw [subLoop]
      by_cases hL : L ≤ innerPos
      · rw [if_pos hL]; exact h
      · rw [if_neg hL]
        cases hr : findRule doc st.idx st.comment lexRules with
        | none => exact ih (innerPos + 1) st h
        | some r =>
            exact ih innerPos _ (emitTok_startLe doc st r.2.1 r.2.2 r.1 h)

theorem lexALoop_startLe (doc : List Char) (ms : List (Nat × Nat)) (st : LexState)
    (h : ∀ t ∈ st.toks, t.start.offset ≤ t.stop.offset) :
    ∀ t ∈ (lexALoop doc ms st).toks, t.start.offset ≤ t.stop.offset := by
  induction ms generalizing st with
  | nil => exact h
  | cons m rest ih =>
      rw [show lexALoop doc (m :: rest) st =
            lexALoop doc rest
              (subLoop doc m.2 (doc.length + m.2 + 1) 0 { st with idx := m.1 })
          from by rw [lexALoop]]
      exact ih _ (subLoop_startLe doc m.2 _ 0 _ h)

/-- C10 (amended). **Per-token offsets are ordered and eof terminates the
chain, but starts are not monotone across tokens** (first Lexer class:
`enter`/`exit` lines 239-289 stamp `start`/`end` from the advancing reader,
`tokenize` lines 317-379 appends the eof pair last; the per-match jump back
to `match.index` breaks cross-token monotonicity when the rule loop has
already scanned past a later search match, see the counterexample): for
every input, the token list is nonempty, its last token is the eof token,
and every token satisfies `start.offset ≤ end.offset`. -/
theorem c10_token_order_amended (doc : List Char) :
    lexATokens doc ≠ [] ∧
    (lexATokens doc).getLast?.map Tok.kind = some TokenKind.eof ∧
    ∀ t ∈ lexATokens doc, t.start.offset ≤ t.stop.offset := by
  refine ⟨?_, ?_, ?_⟩
  · show (emitTok doc _ .eof [] true).toks ≠ []
    unfold emitTok
    simp
  · show ((emitTok doc _ .eof [] true).toks).getLast?.map Tok.kind = some TokenKind.eof
    unfold emitTok
    simp
  · exact emitTok_startLe doc _ .eof [] true
      (lexALoop_startLe doc _ _ (by intro t ht; cases ht))

/-!
## Claim C4: inline tag extraction
-/

theorem wordChar_ne_lbrace {c : Char} (h : wordChar c = true) : c ≠ '{' := by
  intro hc; rw [hc] at h; exact absurd h (by decide)

theorem wordChar_ne_backslash {c : Char} (h : wordChar c = true) : c ≠ '\\' := by
  intro hc; rw [hc] at h; exact absurd h (by decide)

theorem wordChar_ne_star {c : Char} (h : wordChar c = true) : c ≠ '*' := by
  intro hc; rw [hc] at h; exact absurd h (by decide)

theorem wordChar_ne_backtick {c : Char} (h : wordChar c = true) : c ≠ '`' := by
  intro hc; rw [hc] at h; exact absurd h (by decide)

theorem wordChar_not_ws {c : Char} (h : wordChar c = true) : (c = '\t' || c = ' ') = false := by
  cases hq : (c = '\t' || c = ' ') with
  | false => rfl
  | true =>
      rcases Bool.or_eq_true_iff.mp hq with h1 | h1
      · rw [decide_eq_true_eq.mp h1] at h; exact absurd h (by decide)
      · rw [decide_eq_true_eq.mp h1] at h; exact absurd h (by decide)

theorem wordChar_not_lb {c : Char} (h : wordChar c = true) : isLineBreak c = false := by
  cases hq : isLineBreak c with
  | false => rfl
  | true =>
      rw [isLineBreak] at hq
      rcases Bool.or_eq_true_iff.mp hq with h1 | h1
      · rw [decide_eq_true_eq.mp h1] at h; exact absurd h (by decide)
      · rw [decide_eq_true_eq.mp h1] at h; exact absurd h (by decide)

theorem splitLines_nolb (s : List Char) (h : ∀ c ∈ s, isLineBreak c = false) :
    splitLines s = [(s, none)] := by
  induction s with
  | nil => rfl
  | cons c cs ih =>
      rw [splitLines]
      rw [h c (List.mem_cons_self c cs)]
      simp only [Bool.false_eq_true, if_false]
      rw [ih (fun d hd => h d (List.mem_cons_of_mem c hd))]

theorem delimLen_zero (s : List Char)
    (h : ∀ c, s.head? = some c → (c = '\t' || c = ' ') = false ∧ c ≠ '*') :
    delimLen s = 0 := by
  cases s with
  | nil => rfl
  | cons c cs =>
      obtain ⟨hws, hstar⟩ := h c rfl
      rw [delimLen]
      simp only [List.takeWhile_cons, hws, Bool.false_eq_true, if_false,
        List.length_nil, List.drop_zero]
      split
      · rename_i heq
        rw [List.cons.injEq] at heq
        exact absurd heq.1 hstar
      · rfl

theorem uncommentValue_nodelim (s : List Char) (hlb : ∀ c ∈ s, isLineBreak c = false)
    (h : ∀ c, s.head? = some c → (c = '\t' || c = ' ') = false ∧ c ≠ '*') :
    uncommentValue s = s := by
  rw [uncommentValue, splitLines_nolb s hlb]
  simp [delimLen_zero s h]

theorem uncommentMap_nolb (s : List Char) (P : Pt) (hlb : ∀ c ∈ s, isLineBreak c = false) :
    uncommentMap s P = [(P.line, P.column - 1)] := by
  rw [uncommentMap, splitLines_nolb s hlb]
  simp [List.enum]

theorem pointAt_column_nolb (p : Pt) (l : List Char) (k : Nat) (hk : k ≤ l.length)
    (h : ∀ c ∈ l.take k, isLineBreak c = false) :
    (pointAt p l k).column = p.column + k := by
  induction l generalizing p k with
  | nil =>
      cases k with
      | zero => simp [pointAt]
      | succ k => simp at hk
  | cons c cs ih =>
      cases k with
      | zero => simp [pointAt]
      | succ k =>
          have hc : isLineBreak c = false := h c (by simp)
          have hk' : k ≤ cs.length := by simpa using hk
          rw [pointAt, ih _ _ hk' (fun d hd => h d (by simp [List.take_succ_cons, hd]))]
          rw [advancePt]
          rw [hc]
          simp only [Bool.false_eq_true, if_false]
          push_cast
          ring

theorem Location.offset_singleline (P : Pt) (text : List Char) (k : Nat) (z : Int)
    (hk : k ≤ text.length) (hnb : ∀ c ∈ text, isLineBreak c = false) :
    Location.offset ⟨text, P⟩ ⟨P.line, P.column + (k : Int), z⟩ = P.offset + k := by
  have hk' : k < (text ++ ['\n']).length := by simp; omega
  have htake : (text ++ ['\n']).take k = text.take k :=
    List.take_append_of_le_length hk
  have hline : (pointAt P (text ++ ['\n']) k).line = P.line := by
    rw [pointAt_line_eq, htake]
    have : lbCount (text.take k) = 0 := by
      rw [lbCount, List.countP_eq_zero]
      intro c hc
      exact by simpa using hnb c (List.mem_of_mem_take hc)
    rw [this]
    push_cast
    ring
  have hcol : (pointAt P (text ++ ['\n']) k).column = P.column + k := by
    apply pointAt_column_nolb
    · exact le_of_lt hk'
    rw [htake]
    intro c hc
    exact hnb c (List.mem_of_mem_take hc)
  have hfind := find?_linecol_scanPts P (text ++ ['\n']) k hk'
  rw [hline, hcol] at hfind
  unfold Location.offset
  show (match (Location.pts ⟨text, P⟩).find?
      (fun q => decide (q.line = P.line ∧ q.column = P.column + (k : Int))) with
    | some q => q.offset | none => -1) = P.offset + k
  rw [show Location.pts ⟨text, P⟩ = scanPts P (text ++ ['\n']) from rfl]
  rw [hfind]
  exact pointAt_offset P (text ++ ['\n']) k hk'

/-- Plain word characters are consumed one at a time into the pending text
run, leaving the last consumed character as the `prev` state. -/
theorem scanInline_plain (a : List Char) (ha : ∀ c ∈ a, wordChar c = true)
    (fuel off : Nat) (prev : Char) (cur s : List Char) :
    scanInline (a.length + fuel) off prev cur (a ++ s) =
      scanInline fuel (off + a.length) (a.getLastD prev) (a.reverse ++ cur) s := by
  induction a generalizing off prev cur with
  | nil => simp
  | cons c a' ih =>
      have hc : wordChar c = true := ha c (by simp)
      have hlen : (c :: a').length + fuel = (a'.length + fuel) + 1 := by
        simp [List.length_cons]; omega
      rw [hlen, List.cons_append, scanInline,
        if_neg (by rintro ⟨⟨hcb, -⟩, -⟩; exact wordChar_ne_lbrace hc hcb)]
      rw [ih (fun d hd => ha d (List.mem_cons_of_mem c hd)) (off + 1) c (c :: cur)]
      rw [List.getLastD_cons]
      have h1 : off + 1 + a'.length = off + (c :: a').length := by
        simp [List.length_cons]; omega
      have h2 : a'.reverse ++ (c :: cur) = (c :: a').reverse ++ cur := by simp
      rw [h1, h2]

/-- The `{@link Foo}` characters. -/
def linkChars : List Char := ['{', '@', 'l', 'i', 'n', 'k', ' ', 'F', 'o', 'o', '}']

theorem linkChars_nolb : ∀ c ∈ linkChars, isLineBreak c = false := by decide

/-- The inline-tag construct step: at `{@link Foo}` the pending text run is
flushed, the inline tag is emitted with its `name`/`value` from the exit
regex, and scanning resumes after the `}`. -/
theorem scanInline_link_step (fuel off : Nat) (prev : Char) (cur b : List Char)
    (hprev : prev ≠ '\\') :
    scanInline (fuel + 1) off prev cur (linkChars ++ b) =
      (if cur.isEmpty then [] else [mdTextNode off cur.reverse]) ++
      (.mk .inlineTag ⟨mdPt off, mdPt (off + 11)⟩
        ['F', 'o', 'o'] ['@', 'l', 'i', 'n', 'k'] false false []) ::
      scanInline fuel (off + 11) '}' [] b := by
  rw [show linkChars ++ b =
    '{' :: '@' :: (['l', 'i', 'n', 'k', ' ', 'F', 'o', 'o', '}'] ++ b) from rfl]
  rw [scanInline]
  rw [if_pos ⟨⟨rfl, hprev⟩, rfl⟩]
  rw [show ('@' :: (['l', 'i', 'n', 'k', ' ', 'F', 'o', 'o', '}'] ++ b)).tail =
    ['l', 'i', 'n', 'k', ' ', 'F', 'o', 'o', '}'] ++ b from rfl]
  rw [show findCloseBrace '@' 0 (['l', 'i', 'n', 'k', ' ', 'F', 'o', 'o', '}'] ++ b) =
    some 8 from rfl]
  rw [Option.elim_some]
  show ((if cur.isEmpty then [] else [mdTextNode off cur.reverse]) ++
      [Node.mk .inlineTag ⟨mdPt off, mdPt (off + (8 + 3))⟩
        ((inlineTagExec ('{' :: '@' ::
            (['l', 'i', 'n', 'k', ' ', 'F', 'o', 'o', '}'] ++ b).take (8 + 1))).elim []
          (fun r => r.2))
        ((inlineTagExec ('{' :: '@' ::
            (['l', 'i', 'n', 'k', ' ', 'F', 'o', 'o', '}'] ++ b).take (8 + 1))).elim []
          (fun r => r.1))
        false false []]) ++
      scanInline fuel (off + (8 + 3)) '}' []
        ((['l', 'i', 'n', 'k', ' ', 'F', 'o', 'o', '}'] ++ b).drop (8 + 1)) = _
  rw [show (['l', 'i', 'n', 'k', ' ', 'F', 'o', 'o', '}'] ++ b).take (8 + 1) =
    ['l', 'i', 'n', 'k', ' ', 'F', 'o', 'o', '}'] from rfl]
  rw [show (['l', 'i', 'n', 'k', ' ', 'F', 'o', 'o', '}'] ++ b).drop (8 + 1) = b from rfl]
  rw [show inlineTagExec ('{' :: '@' :: ['l', 'i', 'n', 'k', ' ', 'F', 'o', 'o', '}']) =
    some (['@', 'l', 'i', 'n', 'k'], ['F', 'o', 'o']) from by decide]
  rw [Option.elim_some, Option.elim_some]
  rw [List.append_assoc]
  rfl

/-- A plain run at the end of the input becomes one final text node. -/
theorem scanInline_plain_end (b : List Char) (hb : ∀ c ∈ b, wordChar c = true)
    (fuel off : Nat) (prev : Char) :
    scanInline (b.length + (fuel + 1)) off prev [] b =
      if b.isEmpty then [] else [mdTextNode (off + b.length) b] := by
  have h := scanInline_plain b hb (fuel + 1) off prev [] []
  rw [List.append_nil] at h
  rw [h, scanInline]
  cases b with
  | nil => simp
  | cons c t =>
      rw [if_neg (by simp), if_neg (by simp)]
      simp [mdTextNode]

/-- `specMdFromMarkdown` on a one-line value `a{@link Foo}b` with plain
`a`, `b`: a paragraph of the text run `a`, the inline tag, and the text run
`b`. -/
theorem specMd_link (a b : List Char)
    (ha : ∀ c ∈ a, wordChar c = true) (hb : ∀ c ∈ b, wordChar c = true) :
    specMdFromMarkdown (a ++ linkChars ++ b) =
      .mk .root ⟨mdPt 0, mdEndPt (a ++ linkChars ++ b)⟩ [] [] false false
        [.mk .paragraph ⟨mdPt 0, mdEndPt (a ++ linkChars ++ b)⟩ [] [] false false
          ((if a.isEmpty then [] else [mdTextNode a.length a]) ++
           (.mk .inlineTag ⟨mdPt a.length, mdPt (a.length + 11)⟩
              ['F', 'o', 'o'] ['@', 'l', 'i', 'n', 'k'] false false []) ::
           (if b.isEmpty then [] else
             [mdTextNode (a.length + 11 + b.length) b]))] := by
  have hhead : ∀ (c : Char) (t : List Char),
      (c :: t).take 4 = ['`', '`', '`', '\n'] → c = '`' := by
    intro c t h
    rw [show (c :: t).take 4 = c :: t.take 3 from rfl] at h
    injection h with h1 _
  have hfence : ¬((a ++ linkChars ++ b).take 4 = ['`', '`', '`', '\n'] ∧
      ((a ++ linkChars ++ b).reverse.take 4 = ['`', '`', '`', '\n'])) := by
    rintro ⟨h4, -⟩
    cases a with
    | nil => exact absurd (hhead '{' _ h4) (by decide)
    | cons c a' => exact wordChar_ne_backtick (ha c (by simp)) (hhead c _ h4)
  have hne : ¬(a ++ linkChars ++ b).isEmpty = true := by
    cases a <;> simp [linkChars]
  have hprev : a.getLastD ' ' ≠ '\\' := by
    cases a with
    | nil => decide
    | cons c a' =>
        have hm : a'.getLastD c ∈ c :: a' := List.getLastD_mem_cons a' c
        rw [List.getLastD_cons]
        exact wordChar_ne_backslash (ha _ hm)
  have hinl : scanInline (a ++ linkChars ++ b).length 0 ' ' [] (a ++ linkChars ++ b) =
      (if a.isEmpty then [] else [mdTextNode a.length a]) ++
      (Node.mk .inlineTag ⟨mdPt a.length, mdPt (a.length + 11)⟩
        ['F', 'o', 'o'] ['@', 'l', 'i', 'n', 'k'] false false []) ::
      (if b.isEmpty then [] else [mdTextNode (a.length + 11 + b.length) b]) := by
    have hlen : (a ++ linkChars ++ b).length = a.length + ((10 + b.length) + 1) := by
      simp [linkChars]
      omega
    rw [hlen,
      show a ++ linkChars ++ b = a ++ (linkChars ++ b) from List.append_assoc a _ b,
      scanInline_plain a ha ((10 + b.length) + 1) 0 ' ' [] (linkChars ++ b)]
    rw [show (0 : Nat) + a.length = a.length from by omega]
    rw [scanInline_link_step (10 + b.length) a.length (a.getLastD ' ')
      (a.reverse ++ []) b hprev]
    rw [show (10 : Nat) + b.length = b.length + (9 + 1) from by omega]
    rw [scanInline_plain_end b hb 9 (a.length + 11) '}']
    have hcur : (a.reverse ++ [] : List Char).isEmpty = a.isEmpty := by
      cases a <;> simp
    rw [hcur]
    have hrev : (a.reverse ++ [] : List Char).reverse = a := by simp
    rw [hrev]
  rw [specMdFromMarkdown]
  rw [if_neg hfence, if_neg hne]
  show Node.mk .root ⟨mdPt 0, mdEndPt (a ++ linkChars ++ b)⟩ [] [] false false
      [Node.mk .paragraph ⟨mdPt 0, mdEndPt (a ++ linkChars ++ b)⟩ [] [] false false
        (scanInline (a ++ linkChars ++ b).length 0 ' ' [] (a ++ linkChars ++ b))] = _
  rw [hinl]

theorem mem_remapNodes (map : List (Int × Int)) (tok : Tok) (code : Bool) (loc : Location)
    {t : Node} {ns : List Node} (h : t ∈ ns) :
    remapNode map tok code loc t ∈ remapNodes map tok code loc ns := by
  induction ns with
  | nil => cases h
  | cons m rest ih =>
      rw [remapNodes]
      rcases List.mem_cons.mp h with rfl | h
      · exact List.mem_cons_self _ _
      · exact List.mem_cons_of_mem _ (ih h)

theorem mem_insertBlankBreaksList (loc : Location) {t : Node} {ns : List Node}
    (h : t ∈ ns) (ht : ¬(t.ty = .brk ∧ t.blank = true)) :
    insertBlankBreaks loc t ∈ insertBlankBreaksList loc ns := by
  induction ns with
  | nil => cases h
  | cons m rest ih =>
      rw [insertBlankBreaksList]
      rcases List.mem_cons.mp h with rfl | h
      · rw [if_neg ht]
        exact List.mem_cons_self _ _
      · by_cases hm : m.ty = .brk ∧ m.blank = true
        · rw [if_pos hm]
          exact List.mem_cons_of_mem _ (List.mem_cons_of_mem _ (ih h))
        · rw [if_neg hm]
          exact List.mem_cons_of_mem _ (ih h)

theorem mem_fixTextsList (loc : Location) (map : List (Int × Int)) {t : Node}
    {ns : List Node} (h : t ∈ ns) (p₀ : Option Node) :
    ∃ pr, fixTextNode loc map pr (fixTextsNode loc map t) ∈ fixTextsList loc map p₀ ns := by
  induction ns generalizing p₀ with
  | nil => cases h
  | cons m rest ih =>
      rw [fixTextsList]
      rcases List.mem_cons.mp h with rfl | h
      · exact ⟨p₀, List.mem_cons_self _ _⟩
      · rcases ih h (some m) with ⟨pr, hpr⟩
        exact ⟨pr, List.mem_cons_of_mem _ hpr⟩

theorem fixTextNode_nontext (loc : Location) (map : List (Int × Int)) (prev : Option Node)
    {t : Node} (h : t.ty ≠ .text) : fixTextNode loc map prev t = t := by
  cases t with
  | mk ty p v n hd bl cs =>
      exact if_neg (by rintro ⟨hty, -⟩; exact h hty)

/-- Membership transport through the markdown bridge: a paragraph child of
the engine root, and an inline tag inside it with no children, survive the
three transforms; only the inline tag's position is rewritten (by
`remapPos`). -/
theorem mem_applyMarkdown_inline (engine : List Char → Node) (tok : Tok) {p t : Node}
    (hp : p ∈ (engine (uncommentValue tok.text)).children)
    (hpty : p.ty = .paragraph)
    (ht : t ∈ p.children)
    (htty : t.ty = .inlineTag) (htch : t.children = []) :
    ∃ q ∈ applyMarkdown engine (some tok) false,
      (Node.mk .inlineTag
          (remapPos (uncommentMap tok.text tok.start) tok false ⟨tok.text, tok.start⟩
            .inlineTag t.hard t.pos)
          t.val t.nm t.hard t.blank []) ∈ q.children := by
  show ∃ q ∈ (fixTextsNode ⟨tok.text, tok.start⟩ (uncommentMap tok.text tok.start)
      (insertBlankBreaks ⟨tok.text, tok.start⟩
        (remapNode (uncommentMap tok.text tok.start) tok false ⟨tok.text, tok.start⟩
          (engine (uncommentValue tok.text))))).children, _
  set loc : Location := ⟨tok.text, tok.start⟩ with hloc
  set map : List (Int × Int) := uncommentMap tok.text tok.start with hmap
  generalize hE : engine (uncommentValue tok.text) = E at hp ⊢
  obtain ⟨ety, epos, ev, en, eh, eb, cs⟩ := E
  simp only [Node.children] at hp
  rw [remapNode, insertBlankBreaks, fixTextsNode]
  simp only [Node.children]
  have hpm : remapNode map tok false loc p ∈ remapNodes map tok false loc cs :=
    mem_remapNodes map tok false loc hp
  have hpty' : (remapNode map tok false loc p).ty = .paragraph := by
    obtain ⟨pty, ppos, pv, pn, ph, pb, pcs⟩ := p
    simp only [Node.ty] at hpty
    rw [remapNode]
    simpa using hpty
  have hpnb : ¬((remapNode map tok false loc p).ty = .brk ∧
      (remapNode map tok false loc p).blank = true) := by
    rintro ⟨hb, -⟩
    rw [hpty'] at hb
    cases hb
  have hpibb : insertBlankBreaks loc (remapNode map tok false loc p) ∈
      insertBlankBreaksList loc (remapNodes map tok false loc cs) :=
    mem_insertBlankBreaksList loc hpm hpnb
  obtain ⟨pr, hq⟩ := mem_fixTextsList loc map hpibb
    ((insertBlankBreaksList loc (remapNodes map tok false loc cs)).getLast?)
  have hfty : (fixTextsNode loc map
      (insertBlankBreaks loc (remapNode map tok false loc p))).ty = .paragraph := by
    obtain ⟨pty, ppos, pv, pn, ph, pb, pcs⟩ := p
    simp only [Node.ty] at hpty
    rw [remapNode, insertBlankBreaks, fixTextsNode]
    simpa using hpty
  rw [fixTextNode_nontext loc map pr (by rw [hfty]; intro hcon; cases hcon)] at hq
  refine ⟨_, hq, ?_⟩
  obtain ⟨pty, ppos, pv, pn, ph, pb, pcs⟩ := p
  simp only [Node.children] at ht
  rw [remapNode, insertBlankBreaks, fixTextsNode]
  simp only [Node.children]
  obtain ⟨tty, tpos, tv, tn, th, tb, tcs⟩ := t
  simp only [Node.ty] at htty
  simp only [Node.children] at htch
  subst htty htch
  have htm : remapNode map tok false loc (.mk .inlineTag tpos tv tn th tb []) ∈
      remapNodes map tok false loc pcs := mem_remapNodes map tok false loc ht
  rw [remapNode, remapNodes] at htm
  have htnb : ¬((Node.mk NodeTy.inlineTag
      (remapPos map tok false loc .inlineTag th tpos) tv tn th tb []).ty = .brk ∧
      (Node.mk NodeTy.inlineTag
      (remapPos map tok false loc .inlineTag th tpos) tv tn th tb []).blank = true) := by
    rintro ⟨hb, -⟩
    simp only [Node.ty] at hb
    cases hb
  have htibb := mem_insertBlankBreaksList loc htm htnb
  rw [insertBlankBreaks, insertBlankBreaksList] at htibb
  obtain ⟨pr2, hq2⟩ := mem_fixTextsList loc map htibb
    ((insertBlankBreaksList loc (remapNodes map tok false loc pcs)).getLast?)
  rw [fixTextsNode, fixTextsList] at hq2
  rw [fixTextNode_nontext loc map pr2 (by simp only [Node.ty]; intro hcon; cases hcon)] at hq2
  simp only [Node.ty, Node.hard, Node.pos, Node.val, Node.nm, Node.blank]
  exact hq2

/-- `remapPos` on an inline-tag position on md line 1, over a single-line
token: lines become the token's start line, columns and offsets are shifted
by the token start. -/
theorem remapPos_inline_singleline (tok : Tok) (k m : Nat)
    (hk : k ≤ tok.text.length) (hm : m ≤ tok.text.length)
    (hnb : ∀ c ∈ tok.text, isLineBreak c = false) :
    remapPos (uncommentMap tok.text tok.start) tok false ⟨tok.text, tok.start⟩
        .inlineTag false ⟨mdPt k, mdPt m⟩ =
      ⟨⟨tok.start.line, tok.start.column + (k : Int), tok.start.offset + (k : Int)⟩,
       ⟨tok.start.line, tok.start.column + (m : Int), tok.start.offset + (m : Int)⟩⟩ := by
  rw [uncommentMap_nolb _ _ hnb]
  have hshift : shiftColumns [(tok.start.line, tok.start.column - 1)]
      (decide (NodeTy.inlineTag = NodeTy.brk)) ⟨mdPt k, mdPt m⟩ =
      ⟨⟨1, tok.start.column + (k : Int), (k : Int)⟩,
       ⟨1, tok.start.column + (m : Int), (m : Int)⟩⟩ := by
    simp [shiftColumns, List.enum, mdPt]
    constructor <;> ring
  rw [remapPos]
  simp only [hshift]
  have hline : (1 : Int) + tok.start.line - 1 = tok.start.line := by ring
  simp only [mdPt, hline]
  rw [if_neg (by rintro ⟨hc, -⟩; cases hc)]
  simp only [if_neg (by decide : ¬(NodeTy.inlineTag = NodeTy.brk))]
  rw [Location.offset_singleline tok.start tok.text k 0 hk hnb]
  have hspan : (1 : Int) - 1 = 0 := by ring
  simp only [hspan, add_zero]
  rw [Location.offset_singleline tok.start tok.text m 0 hm hnb]

/-- C4. **Inline tag extraction with source-coordinate span** (part_018:
tokenizer lines 1560-1614, exit handler lines 1688-1730; markdown engine
modelled from the spec, see `SpecMd`): for every markdown token whose text
is `a{@link Foo}b` with plain word-character runs `a` and `b`, the bridge
output contains an `inlineTag` node with name `@link` and value `Foo`
whose start and end span the full `{...}` range shifted into source-file
coordinates: start at the `{` (token start plus `|a|`) and end just past
the `}` (eleven characters later). -/
theorem c4_inline_tag_link_span (a b : List Char) (tok : Tok)
    (ha : ∀ c ∈ a, wordChar c = true) (hb : ∀ c ∈ b, wordChar c = true)
    (htext : tok.text = a ++ linkChars ++ b) :
    ∃ q ∈ applyMarkdown specMdFromMarkdown (some tok) false,
      (Node.mk NodeTy.inlineTag
        ⟨⟨tok.start.line, tok.start.column + (a.length : Int),
          tok.start.offset + (a.length : Int)⟩,
         ⟨tok.start.line, tok.start.column + (a.length : Int) + 11,
          tok.start.offset + (a.length : Int) + 11⟩⟩
        ['F', 'o', 'o'] ['@', 'l', 'i', 'n', 'k'] false false []) ∈ q.children := by
  have hnb : ∀ c ∈ tok.text, isLineBreak c = false := by
    rw [htext]
    intro c hc
    simp only [List.mem_append] at hc
    rcases hc with (hc | hc) | hc
    · exact wordChar_not_lb (ha c hc)
    · exact linkChars_nolb c hc
    · exact wordChar_not_lb (hb c hc)
  have hhead : ∀ c, tok.text.head? = some c → (c = '\t' || c = ' ') = false ∧ c ≠ '*' := by
    rw [htext]
    cases a with
    | nil =>
        intro c hc
        have : c = '{' := by
          have h0 : (([] ++ linkChars ++ b : List Char)).head? = some '{' := rfl
          rw [h0] at hc
          injection hc with h1
          exact h1.symm
        subst this
        exact ⟨rfl, by decide⟩
    | cons c0 a' =>
        intro c hc
        have h0 : ((c0 :: a' ++ linkChars ++ b : List Char)).head? = some c0 := rfl
        rw [h0] at hc
        injection hc with h1
        subst h1
        exact ⟨wordChar_not_ws (ha _ (by simp)), wordChar_ne_star (ha _ (by simp))⟩
  have hval : uncommentValue tok.text = tok.text := uncommentValue_nodelim _ hnb hhead
  have hlen : tok.text.length = a.length + 11 + b.length := by
    rw [htext]
    simp [linkChars]
    omega
  have hp : (Node.mk .paragraph ⟨mdPt 0, mdEndPt (a ++ linkChars ++ b)⟩ [] [] false false
      ((if a.isEmpty then [] else [mdTextNode a.length a]) ++
       (Node.mk .inlineTag ⟨mdPt a.length, mdPt (a.length + 11)⟩
          ['F', 'o', 'o'] ['@', 'l', 'i', 'n', 'k'] false false []) ::
       (if b.isEmpty then [] else [mdTextNode (a.length + 11 + b.length) b]))) ∈
      (specMdFromMarkdown (uncommentValue tok.text)).children := by
    rw [hval, htext, specMd_link a b ha hb]
    simp only [Node.children]
    exact List.mem_cons_self _ _
  have ht : (Node.mk .inlineTag ⟨mdPt a.length, mdPt (a.length + 11)⟩
      ['F', 'o', 'o'] ['@', 'l', 'i', 'n', 'k'] false false []) ∈
      (Node.mk NodeTy.paragraph ⟨mdPt 0, mdEndPt (a ++ linkChars ++ b)⟩ [] [] false false
        ((if a.isEmpty then [] else [mdTextNode a.length a]) ++
         (Node.mk .inlineTag ⟨mdPt a.length, mdPt (a.length + 11)⟩
            ['F', 'o', 'o'] ['@', 'l', 'i', 'n', 'k'] false false []) ::
         (if b.isEmpty then [] else [mdTextNode (a.length + 11 + b.length) b]))).children := by
    simp only [Node.children]
    exact List.mem_append.mpr (Or.inr (List.mem_cons_self _ _))
  have h := mem_applyMarkdown_inline specMdFromMarkdown tok hp rfl ht rfl rfl
  have hrw := remapPos_inline_singleline tok a.length (a.length + 11)
    (by omega) (by omega) hnb
  rw [show ((a.length + 11 : Nat) : Int) = (a.length : Int) + 11 from by push_cast; ring]
    at hrw
  simp only [Node.hard, Node.pos, Node.val, Node.nm, Node.blank, hrw] at h
  simp only [← add_assoc] at h
  exact h

/-- Witness for `c4_inline_tag_link_span` at `see{@link Foo}ok` with token
start `(1,5,4)`. -/
theorem c4_inline_tag_link_span_witness :
    ∃ q ∈ applyMarkdown specMdFromMarkdown
        (some ⟨.markdown, ⟨1, 5, 4⟩, ⟨1, 21, 20⟩,
          ['s', 'e', 'e', '{', '@', 'l', 'i', 'n', 'k', ' ', 'F', 'o', 'o', '}',
           'o', 'k']⟩) false,
      (Node.mk NodeTy.inlineTag ⟨⟨1, 8, 7⟩, ⟨1, 19, 18⟩⟩
        ['F', 'o', 'o'] ['@', 'l', 'i', 'n', 'k'] false false []) ∈ q.children := by
  have h := c4_inline_tag_link_span ['s', 'e', 'e'] ['o', 'k']
    ⟨.markdown, ⟨1, 5, 4⟩, ⟨1, 21, 20⟩,
      ['s', 'e', 'e', '{', '@', 'l', 'i', 'n', 'k', ' ', 'F', 'o', 'o', '}', 'o', 'k']⟩
    (by decide) (by decide) rfl
  norm_num at h
  exact h

/-!
## Claim C2: blockTag type-expression placement
-/

mutual

/-- No `typeExpression` node anywhere in this subtree. -/
def NoTE : Node → Prop
  | .mk ty _ _ _ _ _ cs => ty ≠ NodeTy.typeExpression ∧ NoTEList cs

/-- `NoTE` for every node of a list. -/
def NoTEList : List Node → Prop
  | [] => True
  | n :: ns => NoTE n ∧ NoTEList ns

end

/-- The claim's per-`blockTag` property: at most one `typeExpression`
child, and when present it is the first child — i.e. every child after the
head is not a `typeExpression`. -/
def TEFirst : List Node → Prop
  | [] => True
  | _ :: rest => ∀ d ∈ rest, d.ty ≠ NodeTy.typeExpression

/-- Every node after the head of the list is `typeExpression`-free, deeply. -/
def TailNoTE : List Node → Prop
  | [] => True
  | _ :: rest => NoTEList rest

mutual

/-- The claim's invariant over a whole tree. -/
def C2Inv : Node → Prop
  | .mk ty _ _ _ _ _ cs => (ty = NodeTy.blockTag → TEFirst cs) ∧ C2InvList cs

/-- `C2Inv` for every node of a list. -/
def C2InvList : List Node → Prop
  | [] => True
  | n :: ns => C2Inv n ∧ C2InvList ns

end

mutual

/-- Parser-tree invariant: a `blockTag`'s non-head children and a
`paragraph`'s children are deeply `typeExpression`-free. -/
def BTTE : Node → Prop
  | .mk ty _ _ _ _ _ cs =>
      (ty = NodeTy.blockTag → TailNoTE cs) ∧
      (ty = NodeTy.paragraph → NoTEList cs) ∧
      BTTEList cs

/-- `BTTE` for every node of a list. -/
def BTTEList : List Node → Prop
  | [] => True
  | n :: ns => BTTE n ∧ BTTEList ns

end

theorem noTE_ty {d : Node} (h : NoTE d) : d.ty ≠ NodeTy.typeExpression := by
  cases d
  exact h.1

theorem noTE_children {d : Node} (h : NoTE d) : NoTEList d.children := by
  cases d
  exact h.2

theorem bTTE_children {d : Node} (h : BTTE d) : BTTEList d.children := by
  cases d
  exact h.2.2

theorem bTTE_paragraph {d : Node} (h : BTTE d) (hp : d.ty = NodeTy.paragraph) :
    NoTEList d.children := by
  cases d
  exact h.2.1 hp

theorem bTTE_blockTag {d : Node} (h : BTTE d) (hp : d.ty = NodeTy.blockTag) :
    TailNoTE d.children := by
  cases d
  exact h.1 hp

theorem NoTEList_mem {l : List Node} (h : NoTEList l) : ∀ d ∈ l, NoTE d := by
  induction l with
  | nil => intro d hd; cases hd
  | cons n ns ih =>
      rw [NoTEList] at h
      intro d hd
      rcases List.mem_cons.mp hd with rfl | hd
      · exact h.1
      · exact ih h.2 d hd

theorem NoTEList_append {a b : List Node} (ha : NoTEList a) (hb : NoTEList b) :
    NoTEList (a ++ b) := by
  induction a with
  | nil => exact hb
  | cons n ns ih =>
      rw [NoTEList] at ha
      rw [List.cons_append, NoTEList]
      exact ⟨ha.1, ih ha.2⟩

theorem BTTEList_append {a b : List Node} (ha : BTTEList a) (hb : BTTEList b) :
    BTTEList (a ++ b) := by
  induction a with
  | nil => exact hb
  | cons n ns ih =>
      rw [BTTEList] at ha
      rw [List.cons_append, BTTEList]
      exact ⟨ha.1, ih ha.2⟩

theorem BTTEList_of_forall {l : List Node} (h : ∀ d ∈ l, BTTE d) : BTTEList l := by
  induction l with
  | nil => rw [BTTEList]; trivial
  | cons n ns ih =>
      rw [BTTEList]
      exact ⟨h n (List.mem_cons_self n ns), ih (fun d hd => h d (List.mem_cons_of_mem n hd))⟩

theorem TEFirst_of_noTEList {l : List Node} (h : NoTEList l) : TEFirst l := by
  cases l with
  | nil => rw [TEFirst]; trivial
  | cons n ns =>
      rw [TEFirst]
      rw [NoTEList] at h
      exact fun d hd => noTE_ty (NoTEList_mem h.2 d hd)

theorem TEFirst_of_tailNoTE {l : List Node} (h : TailNoTE l) : TEFirst l := by
  cases l with
  | nil => rw [TEFirst]; trivial
  | cons n ns =>
      rw [TEFirst]
      rw [TailNoTE] at h
      exact fun d hd => noTE_ty (NoTEList_mem h d hd)

theorem tailNoTE_of_noTEList {l : List Node} (h : NoTEList l) : TailNoTE l := by
  cases l with
  | nil => rw [TailNoTE]; trivial
  | cons n ns =>
      rw [TailNoTE]
      rw [NoTEList] at h
      exact h.2

mutual

theorem BTTE_of_NoTE (n : Node) (h : NoTE n) : BTTE n :=
  match n with
  | .mk ty p v nm hd bl cs => by
      rw [NoTE] at h
      rw [BTTE]
      exact ⟨fun _ => tailNoTE_of_noTEList h.2, fun _ => h.2,
        BTTEList_of_NoTEList cs h.2⟩

theorem BTTEList_of_NoTEList (ns : List Node) (h : NoTEList ns) : BTTEList ns :=
  match ns with
  | [] => by rw [BTTEList]; trivial
  | n :: rest => by
      rw [NoTEList] at h
      rw [BTTEList]
      exact ⟨BTTE_of_NoTE n h.1, BTTEList_of_NoTEList rest h.2⟩

end

mutual

theorem C2Inv_of_BTTE (n : Node) (h : BTTE n) : C2Inv n :=
  match n with
  | .mk ty p v nm hd bl cs => by
      rw [BTTE] at h
      rw [C2Inv]
      exact ⟨fun hbt => TEFirst_of_tailNoTE (h.1 hbt), C2InvList_of_BTTEList cs h.2.2⟩

theorem C2InvList_of_BTTEList (ns : List Node) (h : BTTEList ns) : C2InvList ns :=
  match ns with
  | [] => by rw [C2InvList]; trivial
  | n :: rest => by
      rw [BTTEList] at h
      rw [C2InvList]
      exact ⟨C2Inv_of_BTTE n h.1, C2InvList_of_BTTEList rest h.2⟩

end

theorem fixTextNode_ty (loc : Location) (map : List (Int × Int))
    (pr : Option Node) (n : Node) : (fixTextNode loc map pr n).ty = n.ty := by
  obtain ⟨ty, p, v, nm, h, b, cs⟩ := n
  simp only [fixTextNode.eq_def]
  repeat' split
  all_goals rfl

theorem fixTextNode_children (loc : Location) (map : List (Int × Int))
    (pr : Option Node) (n : Node) :
    (fixTextNode loc map pr n).children = n.children := by
  obtain ⟨ty, p, v, nm, h, b, cs⟩ := n
  simp only [fixTextNode.eq_def]
  repeat' split
  all_goals rfl

mutual

theorem NoTE_remapNode (map : List (Int × Int)) (tok : Tok) (code : Bool) (loc : Location)
    (n : Node) (h : NoTE n) : NoTE (remapNode map tok code loc n) :=
  match n with
  | .mk ty p v nm hd bl cs => by
      rw [NoTE] at h
      rw [remapNode, NoTE]
      exact ⟨h.1, NoTEList_remapNodes map tok code loc cs h.2⟩

theorem NoTEList_remapNodes (map : List (Int × Int)) (tok : Tok) (code : Bool)
    (loc : Location) (ns : List Node) (h : NoTEList ns) :
    NoTEList (remapNodes map tok code loc ns) :=
  match ns with
  | [] => by rw [remapNodes, NoTEList]; trivial
  | n :: rest => by
      rw [NoTEList] at h
      rw [remapNodes, NoTEList]
      exact ⟨NoTE_remapNode map tok code loc n h.1,
        NoTEList_remapNodes map tok code loc rest h.2⟩

end

theorem NoTE_blankBreakNode (loc : Location) (m : Node) : NoTE (blankBreakNode loc m) :=
  ⟨fun hq => NodeTy.noConfusion hq, True.intro⟩

mutual

theorem NoTE_insertBlankBreaks (loc : Location) (n : Node) (h : NoTE n) :
    NoTE (insertBlankBreaks loc n) :=
  match n with
  | .mk ty p v nm hd bl cs => by
      rw [NoTE] at h
      rw [insertBlankBreaks, NoTE]
      exact ⟨h.1, NoTEList_insertBlankBreaksList loc cs h.2⟩

theorem NoTEList_insertBlankBreaksList (loc : Location) (ns : List Node)
    (h : NoTEList ns) : NoTEList (insertBlankBreaksList loc ns) :=
  match ns with
  | [] => by rw [insertBlankBreaksList, NoTEList]; trivial
  | n :: rest => by
      rw [NoTEList] at h
      rw [insertBlankBreaksList]
      by_cases hc : n.ty = NodeTy.brk ∧ n.blank = true
      · rw [if_pos hc]
        rw [NoTEList, NoTEList]
        exact ⟨NoTE_blankBreakNode loc n, h.1,
          NoTEList_insertBlankBreaksList loc rest h.2⟩
      · rw [if_neg hc]
        rw [NoTEList]
        exact ⟨NoTE_insertBlankBreaks loc n h.1,
          NoTEList_insertBlankBreaksList loc rest h.2⟩

end

theorem NoTE_of_ty_children {m x : Node} (hty : m.ty = x.ty)
    (hch : m.children = x.children) (h : NoTE x) : NoTE m := by
  obtain ⟨a, b, c, d, e, f, g⟩ := m
  obtain ⟨a', b', c', d', e', f', g'⟩ := x
  simp only [Node.ty, Node.children] at hty hch
  subst hty
  subst hch
  rw [NoTE] at h ⊢
  exact h

mutual

theorem NoTE_fixTextsNode (loc : Location) (map : List (Int × Int)) (n : Node)
    (h : NoTE n) : NoTE (fixTextsNode loc map n) :=
  match n with
  | .mk ty p v nm hd bl cs => by
      rw [NoTE] at h
      rw [fixTextsNode, NoTE]
      exact ⟨h.1, NoTEList_fixTextsList loc map cs.getLast? cs h.2⟩

theorem NoTEList_fixTextsList (loc : Location) (map : List (Int × Int))
    (pr : Option Node) (ns : List Node) (h : NoTEList ns) :
    NoTEList (fixTextsList loc map pr ns) :=
  match ns with
  | [] => by rw [fixTextsList, NoTEList]; trivial
  | n :: rest => by
      rw [NoTEList] at h
      rw [fixTextsList, NoTEList]
      have hf := NoTE_fixTextsNode loc map n h.1
      exact ⟨NoTE_of_ty_children (fixTextNode_ty loc map pr (fixTextsNode loc map n))
          (fixTextNode_children loc map pr (fixTextsNode loc map n)) hf,
        NoTEList_fixTextsList loc map (some n) rest h.2⟩

end

/-- The markdown bridge preserves `typeExpression`-freedom: with an engine
whose root children are `typeExpression`-free, so is the child list
`applyMarkdown` returns. -/
theorem NoTEList_applyMarkdown (engine : List Char → Node)
    (HE : ∀ s, NoTEList (engine s).children) (md : Option Tok) (code : Bool) :
    NoTEList (applyMarkdown engine md code) := by
  cases md with
  | none => rw [applyMarkdown, NoTEList]; trivial
  | some tok =>
      show NoTEList (fixTextsNode _ _ (insertBlankBreaks _ (remapNode _ tok code _ _))).children
      generalize hE : engine (if code = true then
        fenceValue (uncommentValue tok.text) else uncommentValue tok.text) = E
      have hcs : NoTEList E.children := by rw [← hE]; exact HE _
      obtain ⟨ety, epos, ev, en, eh, eb, cs⟩ := E
      simp only [Node.children] at hcs
      rw [remapNode, insertBlankBreaks, fixTextsNode]
      simp only [Node.children]
      exact NoTEList_fixTextsList _ _ _ _
        (NoTEList_insertBlankBreaksList _ _
          (NoTEList_remapNodes _ tok code _ cs hcs))

theorem NoTE_mdTextNode (stop : Nat) (cur : List Char) : NoTE (mdTextNode stop cur) :=
  ⟨fun hq => NodeTy.noConfusion hq, True.intro⟩

theorem NoTEList_scanInline (fuel : Nat) :
    ∀ (off : Nat) (prev : Char) (cur s : List Char),
      NoTEList (scanInline fuel off prev cur s) := by
  induction fuel with
  | zero =>
      intro off prev cur s
      cases s with
      | nil =>
          rw [scanInline]
          by_cases hc : cur.isEmpty = true
          · rw [if_pos hc]; rw [NoTEList]; trivial
          · rw [if_neg hc]; rw [NoTEList]; exact ⟨NoTE_mdTextNode _ _, trivial⟩
      | cons c rest =>
          rw [scanInline]
          · rw [NoTEList]
            exact ⟨NoTE_mdTextNode _ _, trivial⟩
          · intro hq; cases hq
  | succ fuel ih =>
      intro off prev cur s
      cases s with
      | nil =>
          rw [scanInline]
          by_cases hc : cur.isEmpty = true
          · rw [if_pos hc]; rw [NoTEList]; trivial
          · rw [if_neg hc]; rw [NoTEList]; exact ⟨NoTE_mdTextNode _ _, trivial⟩
      | cons c rest =>
          rw [scanInline]
          by_cases hc : (c = '{' ∧ prev ≠ '\\') ∧ rest.head? = some '@'
          · rw [if_pos hc]
            cases hfc : findCloseBrace '@' 0 rest.tail with
            | none => rw [Option.elim_none]; exact ih _ _ _ _
            | some i =>
                rw [Option.elim_some]
                apply NoTEList_append
                · apply NoTEList_append
                  · by_cases hcur : cur.isEmpty = true
                    · rw [if_pos hcur]; rw [NoTEList]; trivial
                    · rw [if_neg hcur]; rw [NoTEList]; exact ⟨NoTE_mdTextNode _ _, trivial⟩
                  · rw [NoTEList]
                    refine ⟨⟨fun hq => NodeTy.noConfusion hq, ?_⟩, trivial⟩
                    rw [NoTEList]; trivial
                · exact ih _ _ _ _
          · rw [if_neg hc]
            exact ih _ _ _ _

/-- The spec-modelled engine never produces `typeExpression` nodes. -/
theorem specMd_NoTE (s : List Char) : NoTEList (specMdFromMarkdown s).children := by
  rw [specMdFromMarkdown.eq_def]
  split
  · simp only [Node.children]
    rw [NoTEList]
    exact ⟨⟨fun hq => NodeTy.noConfusion hq, trivial⟩, trivial⟩
  · split
    · simp only [Node.children]
      rw [NoTEList]
      trivial
    · simp only [Node.children]
      rw [NoTEList]
      exact ⟨⟨fun hq => NodeTy.noConfusion hq, NoTEList_scanInline _ _ _ _ _⟩, trivial⟩

theorem NoTEList_unwrapList (pty : NodeTy) (fuel : Nat) (l : List Node)
    (h : NoTEList l) : NoTEList (unwrapList pty fuel l) := by
  induction fuel generalizing pty l with
  | zero => rw [unwrapList]; exact h
  | succ fuel ih =>
      cases l with
      | nil => rw [unwrapList]; trivial
      | cons n rest =>
          rw [NoTEList] at h
          rw [unwrapList]
          by_cases hc : n.ty = NodeTy.paragraph ∧ (pty = .blockTag ∨ pty = .listItem)
          · rw [if_pos hc]
            exact ih pty _ (NoTEList_append (noTE_children h.1) h.2)
          · rw [if_neg hc]
            rw [NoTEList]
            exact ⟨⟨noTE_ty h.1, ih n.ty _ (noTE_children h.1)⟩, ih pty _ h.2⟩

theorem TEFirst_unwrapList_bt (fuel : Nat) (l : List Node)
    (hbt : BTTEList l) (htail : TailNoTE l) :
    TEFirst (unwrapList NodeTy.blockTag fuel l) := by
  cases fuel with
  | zero => rw [unwrapList]; exact TEFirst_of_tailNoTE htail
  | succ fuel =>
      cases l with
      | nil => rw [unwrapList]; rw [TEFirst]; trivial
      | cons n rest =>
          rw [BTTEList] at hbt
          rw [TailNoTE] at htail
          rw [unwrapList]
          by_cases hc : n.ty = NodeTy.paragraph ∧
              (NodeTy.blockTag = NodeTy.blockTag ∨ NodeTy.blockTag = NodeTy.listItem)
          · rw [if_pos hc]
            exact TEFirst_of_noTEList (NoTEList_unwrapList _ _ _
              (NoTEList_append (bTTE_paragraph hbt.1 hc.1) htail))
          · rw [if_neg hc]
            rw [TEFirst]
            exact fun d hd => noTE_ty (NoTEList_mem (NoTEList_unwrapList _ _ _ htail) d hd)

theorem C2InvList_unwrapList (pty : NodeTy) (fuel : Nat) (l : List Node)
    (h : BTTEList l) : C2InvList (unwrapList pty fuel l) := by
  induction fuel generalizing pty l with
  | zero => rw [unwrapList]; exact C2InvList_of_BTTEList l h
  | succ fuel ih =>
      cases l with
      | nil => rw [unwrapList]; trivial
      | cons n rest =>
          rw [BTTEList] at h
          rw [unwrapList]
          by_cases hc : n.ty = NodeTy.paragraph ∧ (pty = .blockTag ∨ pty = .listItem)
          · rw [if_pos hc]
            exact ih pty _ (BTTEList_append (bTTE_children h.1) h.2)
          · rw [if_neg hc]
            rw [C2InvList]
            refine ⟨?_, ih pty _ h.2⟩
            rw [C2Inv]
            refine ⟨?_, ih n.ty _ (bTTE_children h.1)⟩
            intro hbt
            rw [hbt]
            exact TEFirst_unwrapList_bt fuel n.children (bTTE_children h.1)
              (bTTE_blockTag h.1 hbt)

theorem mem_repPGo_values {α : Type} {p : P α} :
    ∀ (fuel : Nat) (ts : List Tok) (l : List α) (rest : List Tok),
      (l, rest) ∈ repPGo p fuel ts → ∀ x ∈ l, ∃ ts1 r1, (x, r1) ∈ p ts1 := by
  intro fuel
  induction fuel with
  | zero =>
      intro ts l rest h x hx
      rw [repPGo] at h
      have he := List.mem_singleton.mp h
      rw [Prod.mk.injEq] at he
      rw [he.1] at hx
      cases hx
  | succ fuel ih =>
      intro ts l rest h x hx
      rw [repPGo] at h
      rcases List.mem_cons.mp h with he | hm
      · rw [Prod.mk.injEq] at he
        rw [he.1] at hx
        cases hx
      · rw [List.mem_flatMap] at hm
        rcases hm with ⟨⟨a, ar2⟩, ha, hin⟩
        by_cases hlt : ar2.length < ts.length
        · rw [if_pos hlt] at hin
          rw [List.mem_map] at hin
          rcases hin with ⟨⟨l', r'⟩, hl', he⟩
          rw [Prod.mk.injEq] at he
          rw [← he.1] at hx
          rcases List.mem_cons.mp hx with rfl | hx'
          · exact ⟨ts, ar2, ha⟩
          · exact ih ar2 l' r' hl' x hx'
        · rw [if_neg hlt] at hin
          cases hin

theorem BTTE_mk_blockTag (pos : Pos) (nm : List Char) (h b : Bool) (cs : List Node)
    (htail : TailNoTE cs) (hlist : BTTEList cs) :
    BTTE (.mk .blockTag pos [] nm h b cs) :=
  ⟨fun _ => htail, fun hq => NodeTy.noConfusion hq, hlist⟩

theorem blockTagP_BTTE (engine : List Char → Node) (cbs : List (List Char))
    (HE : ∀ s, NoTEList (engine s).children)
    {ts : List Tok} {v : Node} {rest : List Tok}
    (h : (v, rest) ∈ blockTagP engine cbs ts) : BTTE v := by
  unfold blockTagP at h
  rcases mem_applyP.mp h with ⟨x, hx, rfl⟩
  obtain ⟨tag, te, md⟩ := x
  rcases mem_seqP.mp hx with ⟨mid, htag, hrest2⟩
  rcases mem_seqP.mp hrest2 with ⟨mid2, hte, hmd⟩
  have hmdNoTE : ∀ code, NoTEList (applyMarkdown engine md code) :=
    fun code => NoTEList_applyMarkdown engine HE md code
  cases te with
  | none =>
      apply BTTE_mk_blockTag
      · exact tailNoTE_of_noTEList (hmdNoTE _)
      · exact BTTEList_of_NoTEList _ (hmdNoTE _)
  | some n =>
      rcases mem_optP.mp hte with ⟨a, ha, hmem⟩ | ⟨hno, -⟩
      · rw [Option.some.injEq] at ha
        subst ha
        unfold typeExpressionP at hmem
        rcases mem_applyP.mp hmem with ⟨tkn, htkn, rfl⟩
        apply BTTE_mk_blockTag
        · exact hmdNoTE _
        · exact ⟨⟨fun hq => NodeTy.noConfusion hq, fun hq => NodeTy.noConfusion hq,
            True.intro⟩, BTTEList_of_NoTEList _ (hmdNoTE _)⟩
      · cases hno

theorem descriptionP_BTTE (engine : List Char → Node)
    (HE : ∀ s, NoTEList (engine s).children)
    {ts : List Tok} {v : Node} {rest : List Tok}
    (h : (v, rest) ∈ descriptionP engine ts) : BTTE v := by
  unfold descriptionP at h
  rcases mem_applyP.mp h with ⟨tkn, htkn, rfl⟩
  exact ⟨fun hq => NodeTy.noConfusion hq, fun hq => NodeTy.noConfusion hq,
    BTTEList_of_NoTEList _ (NoTEList_applyMarkdown engine HE _ _)⟩

theorem commentP_BTTE (engine : List Char → Node) (cbs : List (List Char))
    (HE : ∀ s, NoTEList (engine s).children)
    {ts : List Tok} {v : Node} {rest : List Tok}
    (h : (v, rest) ∈ commentP engine cbs ts) : BTTE v := by
  unfold commentP at h
  rcases mem_applyP.mp h with ⟨x, hx, rfl⟩
  obtain ⟨opener, desc, bts, closer⟩ := x
  rcases mem_seqP.mp hx with ⟨m1, hop, h2⟩
  rcases mem_seqP.mp h2 with ⟨m2, hdesc, h3⟩
  rcases mem_seqP.mp h3 with ⟨m3, hbts, hcl⟩
  refine ⟨fun hq => NodeTy.noConfusion hq, fun hq => NodeTy.noConfusion hq,
    BTTEList_append ?_ ?_⟩
  · cases desc with
    | none => rw [BTTEList]; trivial
    | some d =>
        rcases mem_optP.mp hdesc with ⟨a, ha, hmem⟩ | ⟨hno, -⟩
        · rw [Option.some.injEq] at ha
          subst ha
          rw [BTTEList]
          exact ⟨descriptionP_BTTE engine HE hmem, by rw [BTTEList]; trivial⟩
        · cases hno
  · apply BTTEList_of_forall
    intro x hxm
    unfold repP at hbts
    rcases mem_repPGo_values _ _ _ _ hbts x hxm with ⟨ts1, r1, hx1⟩
    exact blockTagP_BTTE engine cbs HE hx1

/-- The `/** @param {number} x - desc */` input. -/
def docParam : List Char :=
  ['/', '*', '*', ' ', '@', 'p', 'a', 'r', 'a', 'm', ' ',
   '{', 'n', 'u', 'm', 'b', 'e', 'r', '}', ' ',
   'x', ' ', '-', ' ', 'd', 'e', 's', 'c', ' ', '*', '/']

theorem lexTokens_docParam : lexTokens docParam =
    [⟨.opener, ⟨1, 1, 0⟩, ⟨1, 4, 3⟩, ['/', '*', '*']⟩,
     ⟨.tag, ⟨1, 5, 4⟩, ⟨1, 11, 10⟩, ['@', 'p', 'a', 'r', 'a', 'm']⟩,
     ⟨.typeExpression, ⟨1, 12, 11⟩, ⟨1, 20, 19⟩,
       ['{', 'n', 'u', 'm', 'b', 'e', 'r', '}']⟩,
     ⟨.markdown, ⟨1, 21, 20⟩, ⟨1, 29, 28⟩, ['x', ' ', '-', ' ', 'd', 'e', 's', 'c']⟩,
     ⟨.closer, ⟨1, 30, 29⟩, ⟨1, 32, 31⟩, ['*', '/']⟩] := by
  decide

/-- C2. **A `blockTag` has at most one `typeExpression` child, always
first when present** (part_018 `Parser.blockTag` lines 1306-1339 builds the
children as the sifted type expression followed by the markdown-derived
children; `Parser.typeExpression` lines 1448-1455): for every engine whose
root children contain no `typeExpression` node (true of the markdown
engine, which produces only markdown node types), every tree the parser
returns satisfies the invariant at every node; and on
`/** @param {number} x - desc */` with default options the `blockTag`'s
first child is the `typeExpression` node with value `number`, its remaining
child the markdown text node for `x - desc`. -/
theorem c2_blocktag_typeexpression_first :
    (∀ (engine : List Char → Node) (cbs : List (List Char)) (doc : List Char) (r : Node),
        (∀ s, NoTEList (engine s).children) →
        parseDoc engine cbs [] doc = .ok r → C2Inv r) ∧
    parseDoc specMdFromMarkdown defaultCodeblocks [] docParam =
      .ok (.mk .root ⟨⟨1, 1, 0⟩, ⟨1, 1, 0⟩⟩ [] [] false false
        [.mk .comment ⟨⟨1, 1, 0⟩, ⟨1, 32, 31⟩⟩ [] [] false false
          [.mk .blockTag ⟨⟨1, 5, 4⟩, ⟨1, 29, 28⟩⟩ []
              ['@', 'p', 'a', 'r', 'a', 'm'] false false
            [.mk .typeExpression ⟨⟨1, 12, 11⟩, ⟨1, 20, 19⟩⟩
              ['n', 'u', 'm', 'b', 'e', 'r'] [] false false [],
             .mk .text ⟨⟨1, 21, 20⟩, ⟨1, 29, 28⟩⟩
              ['x', ' ', '-', ' ', 'd', 'e', 's', 'c'] [] false false []]]]) := by
  constructor
  · intro engine cbs doc r HE h
    rcases expectSingle_ok_mem h with ⟨rest, hm⟩
    rcases mem_applyP.mp hm with ⟨children, hch, rfl⟩
    have hbt : BTTEList children := by
      apply BTTEList_of_forall
      intro x hxm
      unfold repP at hch
      rcases mem_repPGo_values _ _ _ _ hch x hxm with ⟨ts1, r1, hx1⟩
      exact commentP_BTTE engine cbs HE hx1
    show C2Inv (paragraphsT (.mk .root ⟨⟨1, 1, 0⟩, ⟨1, 1, 0⟩⟩ [] [] false false children))
    rw [paragraphsT]
    simp only [Node.ty, Node.pos, Node.val, Node.nm, Node.hard, Node.blank, Node.children]
    rw [C2Inv]
    exact ⟨fun hq => NodeTy.noConfusion hq, C2InvList_unwrapList _ _ _ hbt⟩
  · show expectSingle
        ((rootP specMdFromMarkdown defaultCodeblocks []) (lexTokens docParam)) = _
    rw [lexTokens_docParam]
    decide

/-- Witness for `c2_blocktag_typeexpression_first`: the engine hypothesis
holds of the modelled markdown engine, and the invariant instance on the
`@param` parse result. -/
theorem c2_blocktag_typeexpression_first_witness :
    (∀ s, NoTEList (specMdFromMarkdown s).children) ∧
    C2Inv (.mk .root ⟨⟨1, 1, 0⟩, ⟨1, 1, 0⟩⟩ [] [] false false
      [.mk .comment ⟨⟨1, 1, 0⟩, ⟨1, 32, 31⟩⟩ [] [] false false
        [.mk .blockTag ⟨⟨1, 5, 4⟩, ⟨1, 29, 28⟩⟩ []
            ['@', 'p', 'a', 'r', 'a', 'm'] false false
          [.mk .typeExpression ⟨⟨1, 12, 11⟩, ⟨1, 20, 19⟩⟩
            ['n', 'u', 'm', 'b', 'e', 'r'] [] false false [],
           .mk .text ⟨⟨1, 21, 20⟩, ⟨1, 29, 28⟩⟩
            ['x', ' ', '-', ' ', 'd', 'e', 's', 'c'] [] false false []]]]) :=
  ⟨specMd_NoTE,
   c2_blocktag_typeexpression_first.1 specMdFromMarkdown defaultCodeblocks docParam _
     specMd_NoTE c2_blocktag_typeexpression_first.2⟩
